import Mathlib

/-! AtariSIO `tools/MiscUtils.cpp`: FSK encoding, the privilege and scheduling
controller, the deadline waiter and the high-speed parameter parser.

A shallow embedding of `MiscUtils::ByteToFsk`, `MiscUtils::DataBlockToFsk`,
`MiscUtils::drop_root_privileges`, `MiscUtils::set_realtime_scheduling`,
`MiscUtils::drop_realtime_scheduling`, `MiscUtils::WaitUntil`,
`MiscUtils::PokeyDivisorToBaudrate` and `MiscUtils::ParseHighSpeedParameters`,
followed by the properties established about them.

Machine integers are natural numbers or integers with the wrap-around written
out: a 32-bit `int` that takes part in unsigned arithmetic is represented by its
two's-complement bit pattern (a natural number below `2^32`), a `uint16_t` list
entry is a natural number below `2^16`.
-/

namespace MiscUtils

/-! ## Definitions: FSK byte encoder -/

/-- The local variables of `ByteToFsk` that live across iterations of its
`for` loop, together with the list the function appends to.  `delay` is the
32-bit pattern of the C++ `int delay`. -/
structure FskLoop where
  current_bit : Nat
  delay : Nat
  mybyte : Nat
  bit_delays : List Nat
deriving DecidableEq

/-- One iteration of the loop body of `ByteToFsk` (source lines 365-372).
`delay += bit_time` is computed in `unsigned int` (modulo `2^32`);
`bit_delays.push_back(delay)` narrows the `int` to `uint16_t` (modulo `2^16`). -/
def fskBody (bit_time : Nat) (s : FskLoop) : FskLoop :=
  if s.mybyte &&& 1 = s.current_bit then
    { current_bit := s.current_bit
      delay := (s.delay + bit_time) % 2 ^ 32
      mybyte := s.mybyte >>> 1
      bit_delays := s.bit_delays }
  else
    { current_bit := s.mybyte &&& 1
      delay := bit_time % 2 ^ 32
      mybyte := s.mybyte >>> 1
      bit_delays := s.bit_delays ++ [s.delay % 2 ^ 16] }

/-- The state of `ByteToFsk` after `n` iterations of its loop. -/
def fskLoop (bit_time : Nat) : Nat → FskLoop → FskLoop
  | 0, s => s
  | n + 1, s => fskLoop bit_time n (fskBody bit_time s)

/-- `MiscUtils::ByteToFsk(byte, bit_delays, bit_time)`: the list `bit_delays`
after the call.  `current_bit = 0`, `delay = bit_time`,
`mybyte = byte | 0x100`, nine iterations, and a final unconditional
`push_back(delay)`. -/
def ByteToFsk (byte : Nat) (bit_delays : List Nat) (bit_time : Nat) : List Nat :=
  let s := fskLoop bit_time 9
    { current_bit := 0
      delay := bit_time % 2 ^ 32
      mybyte := byte ||| 0x100
      bit_delays := bit_delays }
  s.bit_delays ++ [s.delay % 2 ^ 16]

/-- The delays that `ByteToFsk byte bit_delays bit_time` appended: what follows
the first `bit_delays.length` entries of the resulting list. -/
def appendedDelays (byte : Nat) (bit_delays : List Nat) (bit_time : Nat) : List Nat :=
  (ByteToFsk byte bit_delays bit_time).drop bit_delays.length

/-! ### The frame and its run-length encoding, as the specification words them -/

/-- The 10-bit frame of a byte: start bit `0`, the eight data bits least
significant first, stop bit `1`. -/
def frame (b : Nat) : List Bool :=
  false :: ((List.range 8).map (fun i => b.testBit i) ++ [true])

/-- Lengths of the maximal runs of equal bits, in order. -/
def runLengths (bits : List Bool) : List Nat :=
  (bits.splitBy (fun x y => x == y)).map List.length

/-- Number of positions where two neighbouring bits differ. -/
def boundaries : List Bool → Nat
  | x :: y :: rest => (if x = y then 0 else 1) + boundaries (y :: rest)
  | _ => 0

/-! ## Definitions: FSK block encoder -/

/-- How a call of `DataBlockToFsk` ends: it returns `value` with the two
output slots holding `fsk_data` and `fsk_len` (`none` for a null pointer,
`some v` for a slot holding `v`; the slot `*fsk_data` is represented by the
array it refers to), or it performs an access outside a buffer, for which C++
defines no behaviour. -/
inductive FskCall where
  | returned (value : Bool) (fsk_data : Option (List Nat)) (fsk_len : Option Nat)
  | undefined
deriving DecidableEq

/-- The first loop of `DataBlockToFsk` (lines 384-386): `n` further iterations
starting at index `i`, each appending the encoding of `data[i]` with the
default bit time to `fsk`.  The `unsigned int i` stays below `data_len` and so
does not wrap.  A read past the end of the buffer is undefined. -/
def encodeLoop (default_bit_time : Nat) (data : List Nat) :
    Nat → Nat → List Nat → Option (List Nat)
  | 0, _, fsk => some fsk
  | n + 1, i, fsk =>
    match data[i]? with
    | some byte => encodeLoop default_bit_time data n (i + 1) (ByteToFsk byte fsk default_bit_time)
    | none => none

/-- The copy loop of `DataBlockToFsk` (lines 392-395): each list entry is
stored at index `i` of the new array and the `unsigned int i` is incremented.
A store outside the array is undefined. -/
def copyLoop : List Nat → Nat → List Nat → Option (List Nat)
  | [], _, arr => some arr
  | x :: rest, i, arr =>
    if i < arr.length then copyLoop rest ((i + 1) % 2 ^ 32) (arr.set i x) else none

/-- `MiscUtils::DataBlockToFsk(data, data_len, fsk_data, fsk_len)`.  `data` is
`none` for a null pointer and otherwise the buffer; `default_bit_time` is the
default argument of `ByteToFsk` declared in `MiscUtils.h`.  `*fsk_len` receives
`fsk.size()` narrowed to `unsigned int`; the array of `*fsk_len` entries
allocated by `new` is represented with all entries `0` before the copy loop
overwrites them. -/
def DataBlockToFsk (default_bit_time : Nat) (data : Option (List Nat)) (data_len : Nat)
    (fsk_data : Option (List Nat)) (fsk_len : Option Nat) : FskCall :=
  if data.isNone || data_len == 0 || fsk_data.isNone || fsk_len.isNone then
    .returned false fsk_data fsk_len
  else
    match data with
    | none => .returned false fsk_data fsk_len
    | some buf =>
      match encodeLoop default_bit_time buf data_len 0 [] with
      | none => .undefined
      | some fsk =>
        let len := fsk.length % 2 ^ 32
        match copyLoop fsk 0 (List.replicate len 0) with
        | none => .undefined
        | some arr => .returned true (some arr) (some len)

/-- The concatenation, in buffer order, of the encodings of the bytes of
`data`, each produced by `ByteToFsk` on an empty list. -/
def blockEncoding (default_bit_time : Nat) (data : List Nat) : List Nat :=
  (data.map (fun byte => ByteToFsk byte [] default_bit_time)).flatten

/-! ## Definitions: privilege and scheduling controller -/

/-- Scheduling policy `SCHED_OTHER` of `<sched.h>`: the default time-shared class. -/
def SCHED_OTHER : Int := 0

/-- Scheduling policy `SCHED_RR` of `<sched.h>`: fixed-priority round-robin. -/
def SCHED_RR : Int := 2

/-- Scheduling policy `SCHED_BATCH` of `<sched.h>`. -/
def SCHED_BATCH : Int := 3

/-- The value of a C++ `int` expression: the mathematical result brought back
into the range `-2^31 .. 2^31 - 1`. -/
def wrapInt (x : Int) : Int := (x + 2 ^ 31) % 2 ^ 32 - 2 ^ 31

/-- The identity, scheduler and memory-lock calls made to the operating system. -/
inductive OsCall where
  | geteuid
  | getuid
  | getegid
  | getgid
  | seteuid (id : Nat)
  | setegid (id : Nat)
  | sched_getscheduler
  | sched_getparam
  | sched_get_priority_max (policy : Int)
  | sched_setscheduler (policy : Int) (priority : Int)
  | mlockall
deriving DecidableEq

/-- The process as the operating system holds it: real and effective user
and group identifiers, the scheduler policy and priority in effect (those last
successfully requested), and whether its pages are locked. -/
structure Process where
  ruid : Nat
  euid : Nat
  rgid : Nat
  egid : Nat
  policy : Int
  priority : Int
  memory_locked : Bool
deriving DecidableEq

/-- The file-scope `static` variables of `MiscUtils.cpp` (lines 194-197 and
219-221). -/
structure Statics where
  uids_set : Bool
  euid : Nat
  uid : Nat
  egid : Nat
  gid : Nat
  realtime_sched_set : Bool
  old_sched_policy : Int
  old_sched_priority : Int
deriving DecidableEq

/-- Everything a controller function can read or change: the process, the
statics, and the record of the operating-system calls made so far, each with
whether it succeeded. -/
structure World where
  proc : Process
  vars : Statics
  calls : List (OsCall × Bool)
deriving DecidableEq

/-- How the process ends when it does not return to the caller. -/
inductive Termination where
  | exit (status : Int)
  | assertion
deriving DecidableEq

/-- Result of running a controller function: it returns a value to its caller,
or the process terminates. -/
inductive Outcome (α : Type) where
  | returned (value : α) (w : World)
  | terminated (how : Termination) (w : World)
deriving DecidableEq

/-- A piece of the program: from the world before to the outcome. -/
def Prog (α : Type) : Type := World → Outcome α

instance : Monad Prog where
  pure v := fun w => .returned v w
  bind m f := fun w =>
    match m w with
    | .returned v w1 => f v w1
    | .terminated how w1 => .terminated how w1

/-- `exit(status)`. -/
def exit {α : Type} (status : Int) : Prog α := fun w => .terminated (.exit status) w

/-- `Assert(cond)` of `AtariDebug.h`: with assertions compiled in
(`assert_aborts`) a false condition ends the process, otherwise the macro does
nothing. -/
def Assert (assert_aborts : Bool) (cond : Bool) : Prog Unit := fun w =>
  if assert_aborts && !cond then .terminated .assertion w else .returned () w

/-- Read the statics. -/
def getVars : Prog Statics := fun w => .returned w.vars w

/-- Assign to the statics. -/
def setVars (f : Statics → Statics) : Prog Unit := fun w =>
  .returned () { w with vars := f w.vars }

/-- `geteuid()`. -/
def geteuid : Prog Nat := fun w =>
  .returned w.proc.euid { w with calls := w.calls ++ [(.geteuid, true)] }

/-- `getuid()`. -/
def getuid : Prog Nat := fun w =>
  .returned w.proc.ruid { w with calls := w.calls ++ [(.getuid, true)] }

/-- `getegid()`. -/
def getegid : Prog Nat := fun w =>
  .returned w.proc.egid { w with calls := w.calls ++ [(.getegid, true)] }

/-- `getgid()`. -/
def getgid : Prog Nat := fun w =>
  .returned w.proc.rgid { w with calls := w.calls ++ [(.getgid, true)] }

/-- `seteuid(id)`: when the operating system accepts (`ok`) the effective user
identifier becomes `id` and `0` is returned, otherwise nothing changes and
`-1` is returned. -/
def seteuid (ok : Bool) (id : Nat) : Prog Int := fun w =>
  .returned (if ok then 0 else -1)
    { w with
      proc := if ok then { w.proc with euid := id } else w.proc
      calls := w.calls ++ [(.seteuid id, ok)] }

/-- `setegid(id)`, as `seteuid` for the effective group identifier. -/
def setegid (ok : Bool) (id : Nat) : Prog Int := fun w =>
  .returned (if ok then 0 else -1)
    { w with
      proc := if ok then { w.proc with egid := id } else w.proc
      calls := w.calls ++ [(.setegid id, ok)] }

/-- `sched_getscheduler(getpid())`: the policy in effect, or `-1` on failure. -/
def sched_getscheduler (ok : Bool) : Prog Int := fun w =>
  .returned (if ok then w.proc.policy else -1)
    { w with calls := w.calls ++ [(.sched_getscheduler, ok)] }

/-- `sched_getparam(getpid(), &sp)`: the return value and `sp.sched_priority`. -/
def sched_getparam (ok : Bool) : Prog (Int × Int) := fun w =>
  .returned (if ok then 0 else -1, w.proc.priority)
    { w with calls := w.calls ++ [(.sched_getparam, ok)] }

/-- `sched_get_priority_max(policy)`, answering `max`. -/
def sched_get_priority_max (max : Int) (policy : Int) : Prog Int := fun w =>
  .returned max { w with calls := w.calls ++ [(.sched_get_priority_max policy, true)] }

/-- `sched_setscheduler(getpid(), policy, &sp)` with `sp.sched_priority =
priority`: when accepted the policy and priority in effect become the
requested ones. -/
def sched_setscheduler (ok : Bool) (policy priority : Int) : Prog Int := fun w =>
  .returned (if ok then 0 else -1)
    { w with
      proc := if ok then { w.proc with policy := policy, priority := priority } else w.proc
      calls := w.calls ++ [(.sched_setscheduler policy priority, ok)] }

/-- `mlockall(MCL_CURRENT)`. -/
def mlockall (ok : Bool) : Prog Int := fun w =>
  .returned (if ok then 0 else -1)
    { w with
      proc := if ok then { w.proc with memory_locked := true } else w.proc
      calls := w.calls ++ [(.mlockall, ok)] }

/-- `reserve_stack_memory()` (lines 184-192) writes a local array only. -/
def reserve_stack_memory : Prog Unit := pure ()

/-- Answers of the operating system to the calls of `drop_root_privileges`,
in program order. -/
structure LowerOs where
  seteuid_ok : Bool
  setegid_ok : Bool
deriving DecidableEq

/-- Answers of the operating system to the calls of `set_realtime_scheduling`,
in program order. -/
structure EnterOs where
  seteuid_up : Bool
  setegid_up : Bool
  getscheduler_ok : Bool
  getparam_ok : Bool
  rr_max : Int
  setscheduler_ok : Bool
  mlockall_ok : Bool
  seteuid_down : Bool
  setegid_down : Bool
deriving DecidableEq

/-- Answers of the operating system to the calls of `drop_realtime_scheduling`,
in program order. -/
structure LeaveOs where
  seteuid_up : Bool
  setegid_up : Bool
  setscheduler_ok : Bool
  seteuid_down : Bool
  setegid_down : Bool
deriving DecidableEq

/-- `MiscUtils::drop_root_privileges()` (lines 199-217).  The `printf` calls
are left out. -/
def drop_root_privileges (os : LowerOs) : Prog Bool := do
  let e ← geteuid
  setVars fun v => { v with euid := e }
  let u ← getuid
  setVars fun v => { v with uid := u }
  let eg ← getegid
  setVars fun v => { v with egid := eg }
  let g ← getgid
  setVars fun v => { v with gid := g }
  let r ← seteuid os.seteuid_ok (← getVars).uid
  if r != 0 then
    exit 1
  let r ← setegid os.setegid_ok (← getVars).gid
  if r != 0 then
    exit 1
  setVars fun v => { v with uids_set := true }
  return true

/-- `MiscUtils::set_realtime_scheduling(priority)` (lines 223-280).  The
`printf`, `ALOG` and `AWARN` calls are left out, as is `getpid()`. -/
def set_realtime_scheduling (os : EnterOs) (priority : Int) : Prog Bool := do
  let mut ret := false
  if (← getVars).uids_set then
    let r ← seteuid os.seteuid_up (← getVars).euid
    if r != 0 then
      exit 1
    let r ← setegid os.setegid_up (← getVars).egid
    if r != 0 then
      exit 1
  let policy ← sched_getscheduler os.getscheduler_ok
  setVars fun v => { v with old_sched_policy := policy }
  let (r, sched_priority) ← sched_getparam os.getparam_ok
  if r != 0 then
    exit 1
  setVars fun v => { v with old_sched_priority := sched_priority }
  let max ← sched_get_priority_max os.rr_max SCHED_RR
  let sched_priority := wrapInt (max - priority)
  let r ← sched_setscheduler os.setscheduler_ok SCHED_RR sched_priority
  if r == 0 then
    setVars fun v => { v with realtime_sched_set := true }
    ret := true
  reserve_stack_memory
  let _ ← mlockall os.mlockall_ok
  if (← getVars).uids_set then
    let r ← seteuid os.seteuid_down (← getVars).uid
    if r != 0 then
      exit 1
    let r ← setegid os.setegid_down (← getVars).gid
    if r != 0 then
      exit 1
  return ret

/-- `MiscUtils::drop_realtime_scheduling()` (lines 282-319).  The `printf`
calls are left out, as is `getpid()`. -/
def drop_realtime_scheduling (assert_aborts : Bool) (os : LeaveOs) : Prog Bool := do
  if !(← getVars).uids_set then
    Assert assert_aborts false
    exit 1
  if (← getVars).realtime_sched_set then
    let r ← seteuid os.seteuid_up (← getVars).euid
    if r != 0 then
      return false
    let r ← setegid os.setegid_up (← getVars).egid
    if r != 0 then
      return false
    let sched_priority := (← getVars).old_sched_priority
    let r ← sched_setscheduler os.setscheduler_ok SCHED_OTHER sched_priority
    if r != 0 then
      return false
    let r ← seteuid os.seteuid_down (← getVars).uid
    if r != 0 then
      return false
    let r ← setegid os.setegid_down (← getVars).gid
    if r != 0 then
      return false
  return true

/-- The value a controller function returned, `none` when the process
terminated instead. -/
def Outcome.value {α : Type} : Outcome α → Option α
  | .returned v _ => some v
  | .terminated _ _ => none

/-- The world in which a controller function stopped. -/
def Outcome.world {α : Type} : Outcome α → World
  | .returned _ w => w
  | .terminated _ w => w

/-- The operating-system calls made between the world `w` and a later world
`w1`. -/
def callsSince (w w1 : World) : List (OsCall × Bool) := w1.calls.drop w.calls.length

/-- Recognises a `sched_setscheduler` call. -/
def OsCall.isSetScheduler : OsCall → Bool
  | .sched_setscheduler _ _ => true
  | _ => false

/-- The Lowered state: `drop_root_privileges` has run (`uids_set`), the statics
`uid` and `gid` hold the real identifiers, and the effective identifiers equal
the real ones. -/
def Lowered (w : World) : Prop :=
  w.vars.uids_set = true ∧ w.vars.uid = w.proc.ruid ∧ w.vars.gid = w.proc.rgid ∧
  w.proc.euid = w.proc.ruid ∧ w.proc.egid = w.proc.rgid

instance (w : World) : Decidable (Lowered w) := by
  unfold Lowered
  infer_instance

/-- A process at program start: real user and group `1000`, effective user and
group `0` (a set-uid root binary), running under `SCHED_BATCH` at priority `0`,
the statics zero-initialised. -/
def startWorld : World :=
  { proc := { ruid := 1000, euid := 0, rgid := 1000, egid := 0,
              policy := SCHED_BATCH, priority := 0, memory_locked := false }
    vars := { uids_set := false, euid := 0, uid := 0, egid := 0, gid := 0,
              realtime_sched_set := false, old_sched_policy := 0, old_sched_priority := 0 }
    calls := [] }

/-- The operating system accepts both calls of `drop_root_privileges`. -/
def lowerOk : LowerOs := { seteuid_ok := true, setegid_ok := true }

/-- The operating system accepts every call of `set_realtime_scheduling`; the
maximum round-robin priority is `99`. -/
def enterOk : EnterOs :=
  { seteuid_up := true, setegid_up := true, getscheduler_ok := true, getparam_ok := true,
    rr_max := 99, setscheduler_ok := true, mlockall_ok := true,
    seteuid_down := true, setegid_down := true }

/-- The operating system accepts every call of `drop_realtime_scheduling`. -/
def leaveOk : LeaveOs :=
  { seteuid_up := true, setegid_up := true, setscheduler_ok := true,
    seteuid_down := true, setegid_down := true }

/-- The operating system accepts the identity calls of
`drop_realtime_scheduling` and refuses its `sched_setscheduler` call. -/
def leaveSchedulerRefused : LeaveOs :=
  { seteuid_up := true, setegid_up := true, setscheduler_ok := false,
    seteuid_down := true, setegid_down := true }

/-- The world after `drop_root_privileges` succeeded from `startWorld`. -/
def loweredWorld : World := (drop_root_privileges lowerOk startWorld).world

/-! ## Definitions: deadline waiter -/

/-- Modelled from the spec: `TimestampType` is declared in `MiscUtils.h`, which
is not among the sources.  The specification describes a timestamp as a
comparable, subtractable time value; the source divides a difference of two
of them by `1000000` to obtain seconds, so it counts microseconds.  It is an
integer here, and `WaitUntil` subtracts only a smaller timestamp from a larger
one. -/
abbrev TimestampType : Type := Int

/-- `NANOSLEEP_THRES` (line 321), in microseconds. -/
def NANOSLEEP_THRES : Int := 20000

/-- The argument of `nanosleep`: a `struct timespec`.  `time_t` and `long` are
taken 64 bits wide, so the quotient and remainder computed from a
`TimestampType` are stored exactly. -/
structure Timespec where
  tv_sec : Int
  tv_nsec : Int
deriving DecidableEq

/-- What `WaitUntil` asks of its collaborators, in program order: a clock
reading with the value read, or a sleep request. -/
inductive WaitEvent where
  | GetCurrentTime (reading : TimestampType)
  | nanosleep (ts : Timespec)
deriving DecidableEq

/-- The `do ... while` loop of `WaitUntil` (lines 343-345).  `clock k` is the
value of the `k`-th call of `GetCurrentTime` (declared in `MiscUtils.h`), a
`TimestampType` counting microseconds; `k` is the number of readings taken so
far.  `fuel` bounds the number of iterations run: `none` means the loop is
still running after `fuel` iterations. -/
def pollLoop (clock : Nat → TimestampType) (startTime endTime : TimestampType) :
    Nat → Nat → List WaitEvent → Option (List WaitEvent)
  | 0, _, _ => none
  | fuel + 1, k, events =>
    let currentTime := clock k
    if currentTime ≥ startTime ∧ currentTime < endTime then
      pollLoop clock startTime endTime fuel (k + 1) (events ++ [.GetCurrentTime currentTime])
    else
      some (events ++ [.GetCurrentTime currentTime])

/-- `MiscUtils::WaitUntil(endTime)` (lines 323-353): the events of the call,
or `none` when the polling loop has not ended within `fuel` iterations.  The
return value of `nanosleep` is not looked at by the source. -/
def WaitUntil (clock : Nat → TimestampType) (fuel : Nat) (endTime : TimestampType) :
    Option (List WaitEvent) :=
  let startTime := clock 0
  if startTime > endTime then
    some [.GetCurrentTime startTime]
  else
    let diff : TimestampType := endTime - startTime
    let events : List WaitEvent :=
      if diff > NANOSLEEP_THRES then
        [.GetCurrentTime startTime,
         .nanosleep { tv_sec := (diff - NANOSLEEP_THRES) / 1000000
                      tv_nsec := ((diff - NANOSLEEP_THRES) % 1000000) * 1000 }]
      else
        [.GetCurrentTime startTime]
    pollLoop clock startTime endTime fuel 1 events

/-- The sleep requests among the events, in order. -/
def sleeps : List WaitEvent → List Timespec
  | [] => []
  | .nanosleep ts :: rest => ts :: sleeps rest
  | .GetCurrentTime _ :: rest => sleeps rest

/-- The clock readings among the events, in order. -/
def readings : List WaitEvent → List Int
  | [] => []
  | .nanosleep _ :: rest => readings rest
  | .GetCurrentTime c :: rest => c :: readings rest

/-- A clock reading lies in the half-open interval from `startTime` to
`endTime`, where the polling loop keeps going. -/
def inWindow (startTime endTime c : Int) : Prop := startTime ≤ c ∧ c < endTime

instance (startTime endTime c : Int) : Decidable (inWindow startTime endTime c) := by
  unfold inWindow
  infer_instance

/-! ## Definitions: high-speed parameter parser -/

/-- The table `divisor_table` (lines 109-127): pairs of divisor and baudrate,
ended by the entry `(-1, -1)`. -/
def divisor_table : List (Int × Int) :=
  [(0, 125494), (1, 110765), (2, 97010), (3, 87771), (4, 80139), (5, 73728), (6, 68266),
   (7, 62481), (8, 57600), (9, 55434), (10, 52150), (16, 38400), (40, 19200), (-1, -1)]

/-- The conversion `(int) divisor` of an `unsigned int`: values from `2^31` on
become negative. -/
def unsignedToInt (n : Nat) : Int :=
  if n % 2 ^ 32 < 2 ^ 31 then ((n % 2 ^ 32 : Nat) : Int) else ((n % 2 ^ 32 : Nat) : Int) - 2 ^ 32

/-- The `while` loop of `PokeyDivisorToBaudrate` (lines 132-138) from some
table position on: the baudrate of the first entry whose divisor equals
`(int) divisor`, `none` when the entry with a negative divisor is reached. -/
def tableLookup (divisor : Nat) : List (Int × Int) → Option Int
  | [] => none
  | (d, b) :: rest =>
    if d ≥ 0 then
      if d = unsignedToInt divisor then some b else tableLookup divisor rest
    else none

/-- `MiscUtils::PokeyDivisorToBaudrate(divisor, baudrate, enable_calculated_speed)`
(lines 129-144): the return value and the value of `baudrate` after the call.
The calculated speed is computed in `unsigned int` (modulo `2^32`); `none` is a
division by zero, for which C++ defines no behaviour. -/
def PokeyDivisorToBaudrate (divisor : Nat) (baudrate : Nat) (enable_calculated_speed : Bool) :
    Option (Bool × Nat) :=
  match tableLookup divisor divisor_table with
  | some b => some (true, b.toNat % 2 ^ 32)
  | none =>
    if enable_calculated_speed then
      if (2 * ((divisor + 7) % 2 ^ 32)) % 2 ^ 32 = 0 then none
      else
        some (true, ((1773445 + divisor + 7) % 2 ^ 32) / ((2 * ((divisor + 7) % 2 ^ 32)) % 2 ^ 32))
    else some (false, baudrate)

/-- `LONG_MAX` of `<limits.h>` for a 64-bit `long`. -/
def LONG_MAX : Int := 2 ^ 63 - 1

/-- `LONG_MIN` of `<limits.h>` for a 64-bit `long`. -/
def LONG_MIN : Int := -2 ^ 63

/-- `isspace` in the C locale: space, and the control characters 9 to 13. -/
def isspace (c : Char) : Bool := c.toNat = 32 || (9 ≤ c.toNat && c.toNat ≤ 13)

/-- The digit loop of `strtol` in base 10: the value of the longest run of
decimal digits at the front of the text, on top of `acc`, and the rest. -/
def strtolDigits : Nat → List Char → Nat × List Char
  | acc, [] => (acc, [])
  | acc, c :: cs =>
    if c.isDigit then strtolDigits (acc * 10 + (c.toNat - 48)) cs else (acc, c :: cs)

/-- `strtol(string, &tmp, 10)` of the C library on a NUL-terminated text given
as the list of its characters before the NUL: the value returned and the text
`tmp` is left pointing at.  White space is skipped, one sign is accepted, the
digits are read; a value outside the range of `long` is replaced by `LONG_MAX`
or `LONG_MIN`; when no digit is found the value is `0` and `tmp` is `string`. -/
def strtol (string : List Char) : Int × List Char :=
  let s1 := string.dropWhile isspace
  let neg := s1.head? = some '-'
  let s2 := if s1.head? = some '-' ∨ s1.head? = some '+' then s1.tail else s1
  match s2 with
  | [] => (0, string)
  | c :: _ =>
    if c.isDigit then
      let r := strtolDigits 0 s2
      (if neg then max LONG_MIN (-(r.1 : Int)) else min LONG_MAX (r.1 : Int), r.2)
    else (0, string)

/-- The character a `char*` points at: the first of the remaining text, NUL at
its end. -/
def deref (s : List Char) : Char := s.headD (Char.ofNat 0)

/-- What `ParseHighSpeedParameters` leaves: its return value and the values of
its two reference parameters after the call. -/
structure ParseResult where
  ret : Bool
  divisor : Nat
  baudrate : Nat
deriving DecidableEq

/-- `MiscUtils::ParseHighSpeedParameters(string, divisor, baudrate,
enable_calculated_speed)` (lines 147-181).  `divisor` is a `uint8_t`,
`baudrate` an `unsigned int`; `tmp == string` compares the texts, which differ
in length as soon as `strtol` has consumed a character.  `none` is undefined
behaviour inside `PokeyDivisorToBaudrate`. -/
def ParseHighSpeedParameters (string : List Char) (divisor baudrate : Nat)
    (enable_calculated_speed : Bool) : Option ParseResult :=
  let (l, tmp) := strtol string
  if tmp = string then
    some { ret := false, divisor := divisor, baudrate := baudrate }
  else if l < 0 ∨ l > 63 then
    some { ret := false, divisor := divisor, baudrate := baudrate }
  else
    let divisor := l.toNat % 2 ^ 8
    match PokeyDivisorToBaudrate divisor baudrate enable_calculated_speed with
    | none => none
    | some (ok, baudrate) =>
      if ok ∧ deref tmp = Char.ofNat 0 then
        some { ret := true, divisor := divisor, baudrate := baudrate }
      else if deref tmp ≠ ',' then
        some { ret := false, divisor := divisor, baudrate := baudrate }
      else
        let string := tmp.tail
        let (l, tmp) := strtol string
        if tmp = string then
          some { ret := false, divisor := divisor, baudrate := baudrate }
        else if l < 0 ∨ l > 150000 then
          some { ret := false, divisor := divisor, baudrate := baudrate }
        else
          let baudrate := l.toNat % 2 ^ 32
          if deref tmp ≠ Char.ofNat 0 then
            some { ret := false, divisor := divisor, baudrate := baudrate }
          else
            some { ret := true, divisor := divisor, baudrate := baudrate }

/-- The decimal text of a natural number, as `Nat.repr` prints it. -/
def decimalText (n : Nat) : List Char := Nat.toDigits 10 n

/-! ## Definitions used in the proofs -/

/-- The loop state `st` of a run with bit time `t` that started from the list
`L` is the loop state `s1` of the run with bit time `1` that started from the
empty list, with every duration multiplied by `t` (and wrapped as the machine
does). -/
def Scaled (t : Nat) (L : List Nat) (s1 st : FskLoop) : Prop :=
  st.current_bit = s1.current_bit ∧ st.mybyte = s1.mybyte ∧
  st.delay = (s1.delay * t) % 2 ^ 32 ∧
  st.bit_delays = L ++ s1.bit_delays.map (fun k => (k * t) % 2 ^ 16)

/-- The events of `m + 1` consecutive clock readings, the first being the
`k`-th reading of the clock. -/
def pollEvents (clock : Nat → Int) (k m : Nat) : List WaitEvent :=
  (List.range (m + 1)).map (fun j => WaitEvent.GetCurrentTime (clock (k + j)))

/-- A clock for examples: the listed readings, then `last` for ever. -/
def clockOf (listed : List Int) (last : Int) : Nat → Int :=
  fun k => listed.getD k last

/-- The events of `WaitUntil` before its polling loop, for a target not before
the first reading: that reading, then the sleep request if the remaining time
exceeds the threshold. -/
def waitPrefix (clock : Nat → Int) (endTime : Int) : List WaitEvent :=
  if endTime - clock 0 > NANOSLEEP_THRES then
    [.GetCurrentTime (clock 0),
     .nanosleep { tv_sec := (endTime - clock 0 - NANOSLEEP_THRES) / 1000000
                  tv_nsec := ((endTime - clock 0 - NANOSLEEP_THRES) % 1000000) * 1000 }]
  else
    [.GetCurrentTime (clock 0)]

/-! ## Lemmas: FSK byte encoder -/

theorem Scaled.body {t : Nat} {L : List Nat} {s1 st : FskLoop}
    (h : Scaled t L s1 st) (hd : s1.delay + 1 < 2 ^ 16) :
    Scaled t L (fskBody 1 s1) (fskBody t st) ∧ (fskBody 1 s1).delay ≤ s1.delay + 1 := by
  obtain ⟨hb, hm, hdel, hl⟩ := h
  have hmul : (s1.delay + 1) * t = s1.delay * t + t := by ring
  unfold fskBody
  rw [hb, hm]
  by_cases hc : s1.mybyte &&& 1 = s1.current_bit
  · simp only [hc, if_true]
    refine ⟨⟨rfl, rfl, ?_, hl⟩, ?_⟩
    · show (st.delay + t) % 2 ^ 32 = ((s1.delay + 1) % 2 ^ 32 * t) % 2 ^ 32
      have h1 : (s1.delay + 1) % 2 ^ 32 = s1.delay + 1 := Nat.mod_eq_of_lt (by omega)
      rw [h1, hmul, hdel]
      omega
    · show (s1.delay + 1) % 2 ^ 32 ≤ s1.delay + 1
      exact Nat.mod_le _ _
  · simp only [hc, if_false]
    refine ⟨⟨rfl, rfl, ?_, ?_⟩, ?_⟩
    · show t % 2 ^ 32 = (1 % 2 ^ 32 * t) % 2 ^ 32
      norm_num
    · show st.bit_delays ++ [st.delay % 2 ^ 16]
        = L ++ (s1.bit_delays ++ [s1.delay % 2 ^ 16]).map (fun k => (k * t) % 2 ^ 16)
      have h1 : s1.delay % 2 ^ 16 = s1.delay := Nat.mod_eq_of_lt (by omega)
      have h2 : st.delay % 2 ^ 16 = (s1.delay * t) % 2 ^ 16 := by rw [hdel]; omega
      rw [hl, h1, h2, List.map_append, List.append_assoc]
      rfl
    · show 1 % 2 ^ 32 ≤ s1.delay + 1
      norm_num

theorem Scaled.loop {t : Nat} {L : List Nat} (n : Nat) {s1 st : FskLoop}
    (h : Scaled t L s1 st) (hd : s1.delay + n < 2 ^ 16) :
    Scaled t L (fskLoop 1 n s1) (fskLoop t n st) ∧ (fskLoop 1 n s1).delay ≤ s1.delay + n := by
  induction n generalizing s1 st with
  | zero => exact ⟨h, Nat.le_refl _⟩
  | succ n ih =>
    obtain ⟨hs, hle⟩ := h.body (by omega)
    obtain ⟨hs2, hle2⟩ := ih hs (by omega)
    refine ⟨hs2, ?_⟩
    show (fskLoop 1 n (fskBody 1 s1)).delay ≤ s1.delay + (n + 1)
    omega

/-- Every call of `ByteToFsk` is determined by the call with bit time `1` on the
empty list: the list passed in is kept as a prefix, and each appended entry is
the unit entry times the bit time, reduced modulo `2^16`. -/
theorem ByteToFsk_eq_unit (b : Nat) (L : List Nat) (t : Nat) :
    ByteToFsk b L t = L ++ (ByteToFsk b [] 1).map (fun k => (k * t) % 2 ^ 16) := by
  have h0 : Scaled t L ⟨0, 1 % 2 ^ 32, b ||| 0x100, []⟩ ⟨0, t % 2 ^ 32, b ||| 0x100, L⟩ := by
    refine ⟨rfl, rfl, ?_, ?_⟩
    · show t % 2 ^ 32 = (1 % 2 ^ 32 * t) % 2 ^ 32
      norm_num
    · simp
  obtain ⟨⟨_, _, hdel, hl⟩, hle⟩ := h0.loop 9 (by norm_num)
  have hle9 : (fskLoop 1 9 ⟨0, 1 % 2 ^ 32, b ||| 0x100, []⟩).delay ≤ 10 := by
    have : (1 : Nat) % 2 ^ 32 = 1 := by norm_num
    simp only [this] at hle ⊢
    omega
  unfold ByteToFsk
  simp only [hl, hdel, List.map_append, List.append_assoc, List.map_cons, List.map_nil]
  congr 2
  have h1 : (fskLoop 1 9 ⟨0, 1 % 2 ^ 32, b ||| 0x100, []⟩).delay % 2 ^ 16
      = (fskLoop 1 9 ⟨0, 1 % 2 ^ 32, b ||| 0x100, []⟩).delay := Nat.mod_eq_of_lt (by omega)
  rw [h1]
  simp only [List.cons.injEq, and_true]
  omega

/-- The unit encodings of all 256 bytes, checked one by one: each is the
run-length encoding of the frame, has `1 +` (number of boundaries) entries, all
between `1` and `9`, and they sum to `10`. -/
theorem unit_encoding_facts : ∀ b, b < 256 →
    ByteToFsk b [] 1 = runLengths (frame b) ∧
    (ByteToFsk b [] 1).length = 1 + boundaries (frame b) ∧
    (∀ k ∈ ByteToFsk b [] 1, 0 < k ∧ k ≤ 9) ∧
    (ByteToFsk b [] 1).sum = 10 := by
  decide!

theorem appendedDelays_eq_unit (b : Nat) (L : List Nat) (t : Nat) :
    appendedDelays b L t = (ByteToFsk b [] 1).map (fun k => (k * t) % 2 ^ 16) := by
  unfold appendedDelays
  rw [ByteToFsk_eq_unit b L t, List.drop_left]

/-- When nine bit times fit in 16 bits no stored entry wraps. -/
theorem appendedDelays_eq_mul (b : Nat) (L : List Nat) (t : Nat) (hb : b < 256)
    (h9 : 9 * t ≤ 65535) :
    appendedDelays b L t = (runLengths (frame b)).map (fun k => k * t) := by
  obtain ⟨hrl, _, hk, _⟩ := unit_encoding_facts b hb
  rw [appendedDelays_eq_unit, ← hrl]
  apply List.map_congr_left
  intro k hkmem
  obtain ⟨_, hk9⟩ := hk k hkmem
  apply Nat.mod_eq_of_lt
  have : k * t ≤ 9 * t := Nat.mul_le_mul_right t hk9
  omega

/-! ## Properties of the FSK byte encoder -/

/-- C1, as stated, fails: for the byte `0x00` and bit time `8000` the first run
lasts `72000`, which is stored as `72000 - 65536 = 6464`; the two stored entries
sum to `14464`, not to `80000`. -/
theorem c1_counterexample :
    (0 : Nat) < 8000 ∧ appendedDelays 0x00 [] 8000 = [6464, 8000] ∧
    (appendedDelays 0x00 [] 8000).sum ≠ 10 * 8000 := by
  decide

/-- C1 (amended): for every byte `b` and every bit time `t` with `0 < t` and
`9 * t ≤ 65535`, the entries `ByteToFsk b L t` appends to the list sum to
exactly `10 * t`. -/
theorem c1_sum_eq_ten_bit_times (b : Nat) (L : List Nat) (t : Nat) (hb : b < 256)
    (_ht : 0 < t) (h9 : 9 * t ≤ 65535) :
    (appendedDelays b L t).sum = 10 * t := by
  obtain ⟨hrl, _, _, hsum⟩ := unit_encoding_facts b hb
  rw [appendedDelays_eq_mul b L t hb h9, ← hrl, List.sum_map_mul_right]
  simp [hsum]

theorem c1_sum_eq_ten_bit_times_witness :
    0 < 7281 ∧ 9 * 7281 ≤ 65535 ∧ (appendedDelays 0x00 [3, 4] 7281).sum = 10 * 7281 :=
  ⟨by decide, by decide,
    c1_sum_eq_ten_bit_times 0x00 [3, 4] 7281 (by decide) (by decide) (by decide)⟩

/-- C2: for every byte `b`, list `L` and bit time `t` with `0 < t` and
`9 * t ≤ 65535`, the list after `ByteToFsk b L t` is `L` followed by the run
lengths of the frame `[0, b0, ..., b7, 1]`, each multiplied by `t`; the number
of appended delays is one more than the number of `0/1` boundaries of the
frame; every appended delay is a strictly positive multiple of `t`; `L` is
kept as a prefix; and the byte `0x55` appends ten delays equal to `t`. -/
theorem c2_run_length_encoding (b : Nat) (L : List Nat) (t : Nat) (hb : b < 256)
    (ht : 0 < t) (h9 : 9 * t ≤ 65535) :
    ByteToFsk b L t = L ++ (runLengths (frame b)).map (fun k => k * t) ∧
    (appendedDelays b L t).length = 1 + boundaries (frame b) ∧
    (∀ x ∈ appendedDelays b L t, 0 < x ∧ ∃ k, 0 < k ∧ x = k * t) ∧
    (ByteToFsk b L t).take L.length = L ∧
    (b = 0x55 → appendedDelays b L t = List.replicate 10 t) := by
  obtain ⟨hrl, hlen, hk, _⟩ := unit_encoding_facts b hb
  have happ := appendedDelays_eq_mul b L t hb h9
  have hfull : ByteToFsk b L t = L ++ (runLengths (frame b)).map (fun k => k * t) := by
    have h := ByteToFsk_eq_unit b L t
    rw [← appendedDelays_eq_unit b L t, happ] at h
    exact h
  refine ⟨hfull, ?_, ?_, ?_, ?_⟩
  · rw [happ, List.length_map, ← hrl, hlen]
  · intro x hx
    rw [happ, ← hrl] at hx
    obtain ⟨k, hkmem, rfl⟩ := List.mem_map.mp hx
    obtain ⟨hk0, _⟩ := hk k hkmem
    exact ⟨Nat.mul_pos hk0 ht, k, hk0, rfl⟩
  · rw [hfull, List.take_left]
  · rintro rfl
    rw [happ]
    have : runLengths (frame 0x55) = List.replicate 10 1 := by decide
    rw [this]
    simp [List.replicate]

theorem c2_run_length_encoding_witness :
    ByteToFsk 0x55 [7] 3 = [7] ++ (runLengths (frame 0x55)).map (fun k => k * 3) ∧
    (appendedDelays 0x55 [7] 3).length = 1 + boundaries (frame 0x55) ∧
    (∀ x ∈ appendedDelays 0x55 [7] 3, 0 < x ∧ ∃ k, 0 < k ∧ x = k * 3) ∧
    (ByteToFsk 0x55 [7] 3).take [7].length = [7] ∧
    (0x55 = 0x55 → appendedDelays 0x55 [7] 3 = List.replicate 10 3) :=
  c2_run_length_encoding 0x55 [7] 3 (by decide) (by decide) (by decide)

/-! ## Lemmas: FSK block encoder -/

theorem ByteToFsk_append (b : Nat) (L : List Nat) (t : Nat) :
    ByteToFsk b L t = L ++ ByteToFsk b [] t := by
  rw [ByteToFsk_eq_unit b L t, ByteToFsk_eq_unit b [] t, List.nil_append]

theorem encodeLoop_eq (d : Nat) (data : List Nat) (n : Nat) :
    ∀ (i : Nat) (fsk : List Nat), i + n ≤ data.length →
      encodeLoop d data n i fsk = some (fsk ++ blockEncoding d ((data.drop i).take n)) := by
  induction n with
  | zero =>
    intro i fsk _
    simp [encodeLoop, blockEncoding]
  | succ n ih =>
    intro i fsk h
    have hi : i < data.length := by omega
    have hdrop : data.drop i = data[i] :: data.drop (i + 1) := List.drop_eq_getElem_cons hi
    have hget : data[i]? = some data[i] := List.getElem?_eq_getElem hi
    simp only [encodeLoop, hget]
    rw [ih (i + 1) _ (by omega), hdrop, List.take_succ_cons, ByteToFsk_append data[i] fsk d]
    simp [blockEncoding, List.append_assoc]

theorem take_set_succ (x : Nat) :
    ∀ (arr : List Nat) (i : Nat), i < arr.length →
      (arr.set i x).take (i + 1) = arr.take i ++ [x]
  | [], i, h => by simp at h
  | a :: arr, 0, _ => by simp
  | a :: arr, i + 1, h => by
    have h2 : i < arr.length := by simpa using h
    simp [take_set_succ x arr i h2]

theorem copyLoop_eq :
    ∀ (fsk : List Nat) (i : Nat) (arr : List Nat), i + fsk.length = arr.length →
      arr.length < 2 ^ 32 → copyLoop fsk i arr = some (arr.take i ++ fsk)
  | [], i, arr, h, _ => by
    have : arr.length ≤ i := by simpa using h.ge
    simp [copyLoop, List.take_of_length_le this]
  | x :: rest, i, arr, h, hlt => by
    have hlen : i + (rest.length + 1) = arr.length := by simpa using h
    have hi : i < arr.length := by omega
    have hmod : (i + 1) % 2 ^ 32 = i + 1 := Nat.mod_eq_of_lt (by omega)
    simp only [copyLoop, hi, if_true, hmod]
    rw [copyLoop_eq rest (i + 1) (arr.set i x) (by simp; omega) (by simpa using hlt),
      take_set_succ x arr i hi]
    simp

theorem copyLoop_overflow :
    ∀ (fsk : List Nat) (i : Nat) (arr : List Nat), arr.length < i + fsk.length →
      arr.length < 2 ^ 32 → i ≤ arr.length → copyLoop fsk i arr = none
  | [], i, arr, h, _, hi => by simp at h; omega
  | x :: rest, i, arr, h, hlt, hi => by
    by_cases hc : i < arr.length
    · have hmod : (i + 1) % 2 ^ 32 = i + 1 := Nat.mod_eq_of_lt (by omega)
      simp only [copyLoop, hc, if_true, hmod]
      exact copyLoop_overflow rest (i + 1) (arr.set i x) (by simp at h ⊢; omega)
        (by simpa using hlt) (by simp; omega)
    · simp [copyLoop, hc]

theorem encodeLoop_full (d : Nat) (data : List Nat) :
    encodeLoop d data data.length 0 [] = some (blockEncoding d data) := by
  rw [encodeLoop_eq d data data.length 0 [] (by omega)]
  simp

/-- What the block encoder does on a non-null buffer of `data.length > 0`
bytes with non-null output slots: it returns the concatenated encoding when
that has fewer than `2^32` entries, and otherwise stores outside the array it
allocated. -/
theorem DataBlockToFsk_valid (d : Nat) (data : List Nat) (a : List Nat) (l : Nat)
    (hne : data ≠ []) :
    DataBlockToFsk d (some data) data.length (some a) (some l) =
      if (blockEncoding d data).length < 2 ^ 32 then
        .returned true (some (blockEncoding d data)) (some (blockEncoding d data).length)
      else .undefined := by
  have hlen : data.length ≠ 0 := by simpa using hne
  unfold DataBlockToFsk
  simp only [Option.isNone_some, Bool.false_or, Bool.or_false, beq_iff_eq, hlen, if_false,
    encodeLoop_full]
  by_cases hfit : (blockEncoding d data).length < 2 ^ 32
  · have hmod : (blockEncoding d data).length % 2 ^ 32 = (blockEncoding d data).length :=
      Nat.mod_eq_of_lt hfit
    simp only [hfit, if_true, hmod]
    rw [copyLoop_eq (blockEncoding d data) 0 _ (by simp) (by simpa using hfit)]
    simp
  · have hlt : (blockEncoding d data).length % 2 ^ 32 < 2 ^ 32 := Nat.mod_lt _ (by norm_num)
    have hlt2 : (blockEncoding d data).length % 2 ^ 32 < (blockEncoding d data).length := by
      omega
    simp only [hfit, if_false]
    rw [copyLoop_overflow (blockEncoding d data) 0 _ (by simpa using hlt2) (by simpa using hlt)
      (by omega)]

theorem blockEncoding_replicate_length (d n b : Nat) :
    (blockEncoding d (List.replicate n b)).length = n * (ByteToFsk b [] d).length := by
  induction n with
  | zero => simp [blockEncoding]
  | succ n ih =>
    have : blockEncoding d (List.replicate (n + 1) b)
        = ByteToFsk b [] d ++ blockEncoding d (List.replicate n b) := by
      simp [blockEncoding, List.replicate_succ]
    rw [this, List.length_append, ih]
    ring

theorem ByteToFsk_length (b : Nat) (L : List Nat) (t : Nat) :
    (ByteToFsk b L t).length = L.length + (ByteToFsk b [] 1).length := by
  rw [ByteToFsk_eq_unit b L t, List.length_append, List.length_map]

theorem fskLoop_length_le (t : Nat) (n : Nat) :
    ∀ s : FskLoop, (fskLoop t n s).bit_delays.length ≤ s.bit_delays.length + n := by
  induction n with
  | zero => intro s; exact Nat.le_refl _
  | succ n ih =>
    intro s
    have hbody : (fskBody t s).bit_delays.length ≤ s.bit_delays.length + 1 := by
      unfold fskBody
      split <;> simp
    have := ih (fskBody t s)
    show (fskLoop t n (fskBody t s)).bit_delays.length ≤ s.bit_delays.length + (n + 1)
    omega

/-- A byte never encodes to more than ten delays. -/
theorem ByteToFsk_length_le (b t : Nat) : (ByteToFsk b [] t).length ≤ 10 := by
  unfold ByteToFsk
  have := fskLoop_length_le t 9 ⟨0, t % 2 ^ 32, b ||| 0x100, []⟩
  simp only [List.length_append, List.length_cons, List.length_nil] at this ⊢
  omega

/-- The encoding of a buffer of `n` bytes has at most `10 * n` entries, so it
has fewer than `2^32` entries whenever `n ≤ 429496729`. -/
theorem blockEncoding_length_le (d : Nat) (data : List Nat) :
    (blockEncoding d data).length ≤ 10 * data.length := by
  induction data with
  | nil => simp [blockEncoding]
  | cons b rest ih =>
    have hb := ByteToFsk_length_le b d
    have : blockEncoding d (b :: rest) = ByteToFsk b [] d ++ blockEncoding d rest := by
      simp [blockEncoding]
    rw [this, List.length_append, List.length_cons]
    omega

/-! ## Properties of the FSK block encoder -/

/-- C3, as stated, fails: a buffer of `429496730` bytes `0x55` is a non-empty
buffer whose length fits `unsigned int`, each byte encodes to ten delays, the
concatenation has `4294967300` entries, `*fsk_len` receives
`4294967300 mod 2^32 = 4`, an array of four entries is allocated and the copy
loop stores past its end: the call does not return the concatenation with its
length, whatever the default bit time. -/
theorem c3_counterexample :
    List.replicate 429496730 0x55 ≠ [] ∧
    (List.replicate 429496730 0x55).length = 429496730 ∧ 429496730 < 2 ^ 32 ∧
    ∀ d : Nat,
      (blockEncoding d (List.replicate 429496730 0x55)).length = 4294967300 ∧
      4294967300 % 2 ^ 32 = 4 ∧
      DataBlockToFsk d (some (List.replicate 429496730 0x55))
        (List.replicate 429496730 0x55).length (some []) (some 0) = FskCall.undefined := by
  have hne : List.replicate 429496730 0x55 ≠ [] := by
    intro h
    have := congrArg List.length h
    rw [List.length_replicate] at this
    exact absurd this (by norm_num)
  refine ⟨hne, List.length_replicate _ _, by norm_num, ?_⟩
  intro d
  have h10 : (ByteToFsk 0x55 [] d).length = 10 := by
    rw [ByteToFsk_length]
    decide
  have hlen : (blockEncoding d (List.replicate 429496730 0x55)).length = 4294967300 := by
    rw [blockEncoding_replicate_length, h10]
  refine ⟨hlen, by norm_num, ?_⟩
  rw [DataBlockToFsk_valid d _ [] 0 hne, hlen]
  rfl

/-- C3 (amended): for every non-empty buffer `data` whose concatenated encoding
has fewer than `2^32` entries, and non-null output slots, `DataBlockToFsk`
returns true, the produced sequence is the concatenation in buffer order of
`ByteToFsk data[i] [] d` (`d` the default bit time), the reported length is the
length of that concatenation, and the sequence splits into `data.length`
consecutive segments, the `i`-th being the encoding of `data[i]`, with the same
total. -/
theorem c3_block_is_concatenation (d : Nat) (data : List Nat) (a : List Nat) (l : Nat)
    (hne : data ≠ []) (hfit : (blockEncoding d data).length < 2 ^ 32) :
    DataBlockToFsk d (some data) data.length (some a) (some l) =
      .returned true (some (blockEncoding d data)) (some (blockEncoding d data).length) ∧
    ∃ segs : List (List Nat),
      blockEncoding d data = segs.flatten ∧ segs.length = data.length ∧
      ∀ (i : Nat) (h : i < data.length),
        ∃ seg, segs[i]? = some seg ∧ seg = ByteToFsk data[i] [] d ∧
          seg.sum = (appendedDelays data[i] [] d).sum := by
  constructor
  · rw [DataBlockToFsk_valid d data a l hne, if_pos hfit]
  · refine ⟨data.map (fun byte => ByteToFsk byte [] d), rfl, by simp, ?_⟩
    intro i h
    exact ⟨ByteToFsk data[i] [] d, by simp [h], rfl, rfl⟩

theorem c3_block_is_concatenation_witness :
    DataBlockToFsk 16 (some [0x00, 0x55, 0xFF]) 3 (some []) (some 0) =
      .returned true
        (some [144, 16, 16, 16, 16, 16, 16, 16, 16, 16, 16, 16, 16, 144]) (some 14) ∧
    blockEncoding 16 [0x00, 0x55, 0xFF] =
      [144, 16] ++ [16, 16, 16, 16, 16, 16, 16, 16, 16, 16] ++ [16, 144] :=
  ⟨(c3_block_is_concatenation 16 [0x00, 0x55, 0xFF] [] 0 (by decide) (by decide)).1,
    by decide⟩

/-- C4: `DataBlockToFsk` returns false if and only if the data buffer is null,
`data_len` is zero, or one of the two output slots is null; and whenever it
returns false both output slots are exactly as before the call. -/
theorem c4_false_iff_invalid_input (d : Nat) (data : Option (List Nat)) (data_len : Nat)
    (fsk_data : Option (List Nat)) (fsk_len : Option Nat) :
    ((∃ fd fl, DataBlockToFsk d data data_len fsk_data fsk_len = .returned false fd fl) ↔
      (data = none ∨ data_len = 0 ∨ fsk_data = none ∨ fsk_len = none)) ∧
    (∀ fd fl, DataBlockToFsk d data data_len fsk_data fsk_len = .returned false fd fl →
      fd = fsk_data ∧ fl = fsk_len) := by
  by_cases hinv : data = none ∨ data_len = 0 ∨ fsk_data = none ∨ fsk_len = none
  · have hres : DataBlockToFsk d data data_len fsk_data fsk_len
        = .returned false fsk_data fsk_len := by
      unfold DataBlockToFsk
      rcases hinv with h | h | h | h <;> simp [h]
    refine ⟨⟨fun _ => hinv, fun _ => ⟨_, _, hres⟩⟩, ?_⟩
    intro fd fl h
    rw [hres] at h
    injection h with _ h2 h3
    exact ⟨h2.symm, h3.symm⟩
  · have hnot : ∀ fd fl, DataBlockToFsk d data data_len fsk_data fsk_len
        ≠ .returned false fd fl := by
      intro fd fl
      simp only [not_or] at hinv
      obtain ⟨h1, h2, h3, h4⟩ := hinv
      obtain ⟨buf, rfl⟩ := Option.ne_none_iff_exists'.mp h1
      obtain ⟨arr, rfl⟩ := Option.ne_none_iff_exists'.mp h3
      obtain ⟨len, rfl⟩ := Option.ne_none_iff_exists'.mp h4
      unfold DataBlockToFsk
      simp only [Option.isNone_some, Bool.false_or, Bool.or_false, beq_iff_eq, h2, if_false]
      split
      · simp
      · split <;> simp
    refine ⟨⟨fun ⟨fd, fl, h⟩ => absurd h (hnot fd fl), fun h => absurd h hinv⟩, ?_⟩
    intro fd fl h
    exact absurd h (hnot fd fl)

/-! ## Lemmas: privilege and scheduling controller -/

theorem wrapInt_of_inRange (x : Int) (hlo : -2 ^ 31 ≤ x) (hhi : x < 2 ^ 31) : wrapInt x = x := by
  unfold wrapInt
  omega

/-- `drop_root_privileges` returns only into the Lowered state. -/
theorem drop_root_privileges_lowered (os : LowerOs) (w w1 : World) (v : Bool)
    (h : drop_root_privileges os w = .returned v w1) : v = true ∧ Lowered w1 := by
  obtain ⟨⟨ru, eu, rg, eg, pol, pri, ml⟩, ⟨us, e, u, eg1, g, rs, op, opr⟩, calls⟩ := w
  obtain ⟨b1, b2⟩ := os
  cases b1 <;> cases b2 <;> cases h
  exact ⟨rfl, rfl, rfl, rfl, rfl, rfl⟩

theorem loweredWorld_lowered :
    drop_root_privileges lowerOk startWorld = .returned true loweredWorld ∧
    Lowered loweredWorld ∧ loweredWorld.proc.policy = SCHED_BATCH ∧
    loweredWorld.proc.priority = 0 ∧ loweredWorld.proc.ruid = 1000 ∧
    loweredWorld.vars.euid = 0 := by
  decide

/-- Whether `set_realtime_scheduling` returns, and what: it terminates exactly
when `sched_getparam` fails or, with `uids_set`, one of the four identity calls
fails; otherwise it returns the answer to its `sched_setscheduler` call. -/
theorem set_realtime_scheduling_value (os : EnterOs) (priority : Int) (w : World) :
    (set_realtime_scheduling os priority w).value =
      if os.getparam_ok && (!w.vars.uids_set ||
          (os.seteuid_up && os.setegid_up && os.seteuid_down && os.setegid_down)) then
        some os.setscheduler_ok
      else none := by
  obtain ⟨⟨ru, eu, rg, eg, pol, pri, ml⟩, ⟨us, e, u, eg1, g, rs, op, opr⟩, calls⟩ := w
  obtain ⟨b1, b2, b3, b4, mx, b5, b6, b7, b8⟩ := os
  cases us <;> cases b1 <;> cases b2 <;> cases b4 <;> cases b5 <;> cases b6 <;> cases b7 <;>
    cases b8 <;> rfl

/-- The world in which `set_realtime_scheduling` returns. -/
theorem set_realtime_scheduling_returned (os : EnterOs) (priority : Int) (w w1 : World)
    (v : Bool) (h : set_realtime_scheduling os priority w = .returned v w1) :
    v = os.setscheduler_ok ∧
    w1.vars = { w.vars with
      old_sched_policy := if os.getscheduler_ok then w.proc.policy else -1
      old_sched_priority := w.proc.priority
      realtime_sched_set := os.setscheduler_ok || w.vars.realtime_sched_set } ∧
    w1.proc = { w.proc with
      euid := if w.vars.uids_set then w.vars.uid else w.proc.euid
      egid := if w.vars.uids_set then w.vars.gid else w.proc.egid
      policy := if os.setscheduler_ok then SCHED_RR else w.proc.policy
      priority := if os.setscheduler_ok then wrapInt (os.rr_max - priority) else w.proc.priority
      memory_locked := os.mlockall_ok || w.proc.memory_locked } ∧
    w1.calls = w.calls ++
      ((if w.vars.uids_set then [(.seteuid w.vars.euid, true), (.setegid w.vars.egid, true)]
        else []) ++
       [(.sched_getscheduler, os.getscheduler_ok), (.sched_getparam, true),
        (.sched_get_priority_max SCHED_RR, true),
        (.sched_setscheduler SCHED_RR (wrapInt (os.rr_max - priority)), os.setscheduler_ok),
        (.mlockall, os.mlockall_ok)] ++
       (if w.vars.uids_set then [(.seteuid w.vars.uid, true), (.setegid w.vars.gid, true)]
        else [])) := by
  obtain ⟨⟨ru, eu, rg, eg, pol, pri, ml⟩, ⟨us, e, u, eg1, g, rs, op, opr⟩, calls⟩ := w
  obtain ⟨b1, b2, b3, b4, mx, b5, b6, b7, b8⟩ := os
  cases us <;> cases b1 <;> cases b2 <;> cases b4 <;> cases b5 <;> cases b6 <;> cases b7 <;>
    cases b8 <;> cases h <;> refine ⟨rfl, rfl, rfl, ?_⟩ <;> simp

/-- From the Lowered state `set_realtime_scheduling` returns only into the
Lowered state. -/
theorem set_realtime_scheduling_keeps_lowered (os : EnterOs) (priority : Int) (w w1 : World)
    (v : Bool) (hL : Lowered w) (h : set_realtime_scheduling os priority w = .returned v w1) :
    Lowered w1 := by
  obtain ⟨hu, huid, hgid, _, _⟩ := hL
  obtain ⟨_, hvars, hproc, _⟩ := set_realtime_scheduling_returned os priority w w1 v h
  unfold Lowered
  rw [hvars, hproc]
  simp [hu, huid, hgid]

/-- The world in which `drop_realtime_scheduling` returns true after a
successful entry. -/
theorem drop_realtime_scheduling_returned_true (a : Bool) (os : LeaveOs) (w w1 : World)
    (hr : w.vars.realtime_sched_set = true)
    (h : drop_realtime_scheduling a os w = .returned true w1) :
    w1.proc.policy = SCHED_OTHER ∧ w1.proc.priority = w.vars.old_sched_priority ∧
    w1.proc.euid = w.vars.uid ∧ w1.proc.egid = w.vars.gid := by
  obtain ⟨⟨ru, eu, rg, eg, pol, pri, ml⟩, ⟨us, e, u, eg1, g, rs, op, opr⟩, calls⟩ := w
  simp only at hr
  subst hr
  obtain ⟨b1, b2, b3, b4, b5⟩ := os
  cases a <;> cases us <;> cases b1 <;> cases b2 <;> cases b3 <;> cases b4 <;> cases b5 <;>
    cases h <;> exact ⟨rfl, rfl, rfl, rfl⟩

/-! ## Properties of the privilege and scheduling controller -/

/-- C5 (what the code does instead): whenever `set_realtime_scheduling`
returns true in a world `w1` and the following `drop_realtime_scheduling`
returns true in a world `w2`, the priority in effect afterwards is the one in
effect before entry, but the policy in effect afterwards is `SCHED_OTHER`,
whatever policy was in effect before entry: the policy recorded in
`old_sched_policy` is not used. -/
theorem c5_leave_installs_sched_other (a : Bool) (os1 : EnterOs) (os2 : LeaveOs)
    (priority : Int) (w w1 w2 : World)
    (h1 : set_realtime_scheduling os1 priority w = .returned true w1)
    (h2 : drop_realtime_scheduling a os2 w1 = .returned true w2) :
    w2.proc.policy = SCHED_OTHER ∧ w2.proc.priority = w.proc.priority ∧
    w1.vars.old_sched_policy = (if os1.getscheduler_ok then w.proc.policy else -1) := by
  obtain ⟨hv, hvars, _, _⟩ := set_realtime_scheduling_returned os1 priority w w1 true h1
  have hr : w1.vars.realtime_sched_set = true := by
    rw [hvars, ← hv]
    rfl
  obtain ⟨hpol, hpri, _, _⟩ := drop_realtime_scheduling_returned_true a os2 w1 w2 hr h2
  refine ⟨hpol, ?_, ?_⟩
  · rw [hpri, hvars]
  · rw [hvars]

/-- C5 fails at the policy `SCHED_BATCH` with priority `0`: from the Lowered
world `loweredWorld`, with every operating-system call accepted, entry and exit
both return true, the recorded policy is `SCHED_BATCH`, and the policy in
effect afterwards is `SCHED_OTHER`. -/
theorem c5_leave_installs_sched_other_witness :
    ∃ w1 w2 : World,
      Lowered loweredWorld ∧ loweredWorld.proc.policy = SCHED_BATCH ∧
      set_realtime_scheduling enterOk 0 loweredWorld = .returned true w1 ∧
      drop_realtime_scheduling true leaveOk w1 = .returned true w2 ∧
      w1.vars.old_sched_policy = SCHED_BATCH ∧
      w2.proc.policy ≠ loweredWorld.proc.policy ∧
      (w2.proc.policy = SCHED_OTHER ∧ w2.proc.priority = loweredWorld.proc.priority ∧
        w1.vars.old_sched_policy =
          (if enterOk.getscheduler_ok then loweredWorld.proc.policy else -1)) :=
  ⟨(set_realtime_scheduling enterOk 0 loweredWorld).world,
   (drop_realtime_scheduling true leaveOk
      (set_realtime_scheduling enterOk 0 loweredWorld).world).world,
   by decide, by decide, by decide, by decide, by decide, by decide,
   c5_leave_installs_sched_other true enterOk leaveOk 0 loweredWorld _ _
     (by decide) (by decide)⟩

/-- C6 fails on the exit path: from `startWorld`, `drop_root_privileges` and
`set_realtime_scheduling` succeed and leave the Lowered state in place; when
the operating system then refuses the `sched_setscheduler` call of
`drop_realtime_scheduling`, that function returns false with the effective
user and group identifiers still `0`, not the real identifiers `1000`. -/
theorem c6_leave_returns_elevated :
    ∃ w1 w2 : World,
      Lowered loweredWorld ∧
      set_realtime_scheduling enterOk 0 loweredWorld = .returned true w1 ∧
      Lowered w1 ∧
      drop_realtime_scheduling true leaveSchedulerRefused w1 = .returned false w2 ∧
      w2.proc.euid = 0 ∧ w2.proc.ruid = 1000 ∧ w2.proc.egid = 0 ∧ w2.proc.rgid = 1000 ∧
      ¬ Lowered w2 :=
  ⟨(set_realtime_scheduling enterOk 0 loweredWorld).world,
   (drop_realtime_scheduling true leaveSchedulerRefused
      (set_realtime_scheduling enterOk 0 loweredWorld).world).world,
   by decide, by decide, by decide, by decide, by decide, by decide, by decide, by decide,
   by decide⟩

/-- C7, as stated, fails: in `startWorld`, where `drop_root_privileges` has not
run, `set_realtime_scheduling 0` with every operating-system call accepted
returns true and the round-robin policy is in effect. -/
theorem c7_counterexample :
    startWorld.vars.uids_set = false ∧
    ∃ w1 : World, set_realtime_scheduling enterOk 0 startWorld = .returned true w1 ∧
      w1.proc.policy = SCHED_RR ∧ w1.proc.priority = 99 :=
  ⟨by decide, (set_realtime_scheduling enterOk 0 startWorld).world, by decide, by decide,
    by decide⟩

/-- C7 (amended): when `set_realtime_scheduling` is called without a prior
`drop_root_privileges` (`uids_set` false) it makes no identity call and leaves
the effective identifiers as they are; it terminates when `sched_getparam`
fails and otherwise returns; its result is true exactly when the operating
system accepts the round-robin request, in which case the round-robin policy
is in effect at the requested priority, and false otherwise, in which case
policy and priority are unchanged. -/
theorem c7_entry_without_lowering (os : EnterOs) (priority : Int) (w : World)
    (hu : w.vars.uids_set = false) :
    (set_realtime_scheduling os priority w).value =
      (if os.getparam_ok then some os.setscheduler_ok else none) ∧
    ∀ (v : Bool) (w1 : World), set_realtime_scheduling os priority w = .returned v w1 →
      (v = true ↔ os.setscheduler_ok = true) ∧
      (v = true → w1.proc.policy = SCHED_RR ∧
        w1.proc.priority = wrapInt (os.rr_max - priority)) ∧
      (v = false → w1.proc.policy = w.proc.policy ∧ w1.proc.priority = w.proc.priority) ∧
      w1.proc.euid = w.proc.euid ∧ w1.proc.egid = w.proc.egid ∧
      callsSince w w1 =
        [(.sched_getscheduler, os.getscheduler_ok), (.sched_getparam, true),
         (.sched_get_priority_max SCHED_RR, true),
         (.sched_setscheduler SCHED_RR (wrapInt (os.rr_max - priority)), os.setscheduler_ok),
         (.mlockall, os.mlockall_ok)] := by
  constructor
  · rw [set_realtime_scheduling_value, hu]
    simp
  · intro v w1 h
    obtain ⟨hv, _, hproc, hcalls⟩ := set_realtime_scheduling_returned os priority w w1 v h
    subst hv
    refine ⟨Iff.rfl, ?_, ?_, ?_, ?_, ?_⟩
    · intro hok
      rw [hproc]
      simp [hok]
    · intro hok
      rw [hproc]
      simp [hok]
    · rw [hproc]
      simp [hu]
    · rw [hproc]
      simp [hu]
    · unfold callsSince
      rw [hcalls, List.drop_left]
      simp [hu]

theorem c7_entry_without_lowering_witness :
    startWorld.vars.uids_set = false ∧
    (set_realtime_scheduling enterOk 0 startWorld).value =
      (if enterOk.getparam_ok then some enterOk.setscheduler_ok else none) :=
  ⟨by decide, (c7_entry_without_lowering enterOk 0 startWorld (by decide)).1⟩

/-- C8: `drop_realtime_scheduling` called when `drop_root_privileges` has never
run (`uids_set` false) ends the process, by the failed `Assert` when assertions
are compiled in and by `exit(1)` otherwise; it returns no value, and the world
at termination is the world at the call, so no operating-system call was
made, whatever the real-time flag, the saved scheduler values and the answers
the operating system would give. -/
theorem c8_leave_without_lowering_terminates (a : Bool) (os : LeaveOs) (w : World)
    (hu : w.vars.uids_set = false) :
    drop_realtime_scheduling a os w =
      .terminated (if a then .assertion else .exit 1) w ∧
    (drop_realtime_scheduling a os w).value = none ∧
    callsSince w (drop_realtime_scheduling a os w).world = [] := by
  obtain ⟨proc, ⟨us, e, u, eg1, g, rs, op, opr⟩, calls⟩ := w
  simp only at hu
  subst hu
  have h : drop_realtime_scheduling a os ⟨proc, ⟨false, e, u, eg1, g, rs, op, opr⟩, calls⟩ =
      .terminated (if a then .assertion else .exit 1)
        ⟨proc, ⟨false, e, u, eg1, g, rs, op, opr⟩, calls⟩ := by
    cases a <;> rfl
  rw [h]
  refine ⟨rfl, rfl, ?_⟩
  simp [callsSince, Outcome.world]

theorem c8_leave_without_lowering_terminates_witness :
    startWorld.vars.uids_set = false ∧
    drop_realtime_scheduling true leaveOk startWorld = .terminated .assertion startWorld ∧
    drop_realtime_scheduling false leaveOk startWorld = .terminated (.exit 1) startWorld :=
  ⟨by decide, (c8_leave_without_lowering_terminates true leaveOk startWorld (by decide)).1,
    (c8_leave_without_lowering_terminates false leaveOk startWorld (by decide)).1⟩

/-- C9: whenever `set_realtime_scheduling priority` returns, its result is true
if and only if the operating system accepted the one `sched_setscheduler`
request it made, which asks for `SCHED_RR` at the `int` value of (maximum
round-robin priority minus `priority`), that is at exactly that difference
when it lies in the `int` range; and for either outcome of `mlockall` the call
returns, with the same result. -/
theorem c9_result_is_policy_installation (os : EnterOs) (priority : Int) (w w1 : World)
    (v : Bool) (h : set_realtime_scheduling os priority w = .returned v w1) :
    (v = true ↔ os.setscheduler_ok = true) ∧
    (callsSince w w1).filter (fun c => c.1.isSetScheduler) =
      [(.sched_setscheduler SCHED_RR (wrapInt (os.rr_max - priority)), os.setscheduler_ok)] ∧
    (-2 ^ 31 ≤ os.rr_max - priority → os.rr_max - priority < 2 ^ 31 →
      wrapInt (os.rr_max - priority) = os.rr_max - priority) ∧
    (∀ m : Bool,
      (set_realtime_scheduling { os with mlockall_ok := m } priority w).value = some v) := by
  obtain ⟨hv, _, _, hcalls⟩ := set_realtime_scheduling_returned os priority w w1 v h
  subst hv
  refine ⟨Iff.rfl, ?_, wrapInt_of_inRange _, ?_⟩
  · unfold callsSince
    rw [hcalls, List.drop_left]
    cases w.vars.uids_set <;> simp [List.filter, OsCall.isSetScheduler]
  · intro m
    have hval := set_realtime_scheduling_value os priority w
    rw [h] at hval
    rw [set_realtime_scheduling_value]
    exact hval.symm

theorem c9_result_is_policy_installation_witness :
    ∃ w1 : World,
      set_realtime_scheduling { enterOk with mlockall_ok := false } 0 loweredWorld
        = .returned true w1 ∧
      (callsSince loweredWorld w1).filter (fun c => c.1.isSetScheduler) =
        [(.sched_setscheduler SCHED_RR 99, true)] ∧
      (set_realtime_scheduling { enterOk with mlockall_ok := true } 0 loweredWorld).value
        = some true :=
  ⟨(set_realtime_scheduling { enterOk with mlockall_ok := false } 0 loweredWorld).world,
   by decide,
   (c9_result_is_policy_installation { enterOk with mlockall_ok := false } 0 loweredWorld
      (set_realtime_scheduling { enterOk with mlockall_ok := false } 0 loweredWorld).world
      true (by decide)).2.1,
   (c9_result_is_policy_installation { enterOk with mlockall_ok := false } 0 loweredWorld
      (set_realtime_scheduling { enterOk with mlockall_ok := false } 0 loweredWorld).world
      true (by decide)).2.2.2 true⟩

/-- C10: `drop_realtime_scheduling` called in the Lowered state after a
successful entry (`uids_set` and `realtime_sched_set` both true) never
terminates the process: for every outcome of its five operating-system calls
it returns a boolean, which is true if and only if all of them succeed and
false as soon as one fails. -/
theorem c10_leave_returns_boolean (a : Bool) (os : LeaveOs) (w : World)
    (hu : w.vars.uids_set = true) (hr : w.vars.realtime_sched_set = true) :
    ∃ (v : Bool) (w1 : World),
      drop_realtime_scheduling a os w = .returned v w1 ∧
      v = (os.seteuid_up && os.setegid_up && os.setscheduler_ok && os.seteuid_down &&
            os.setegid_down) ∧
      (v = true ↔ (os.seteuid_up = true ∧ os.setegid_up = true ∧ os.setscheduler_ok = true ∧
            os.seteuid_down = true ∧ os.setegid_down = true)) := by
  obtain ⟨proc, ⟨us, e, u, eg1, g, rs, op, opr⟩, calls⟩ := w
  simp only at hu hr
  subst hu hr
  obtain ⟨b1, b2, b3, b4, b5⟩ := os
  cases b1 <;> cases b2 <;> cases b3 <;> cases b4 <;> cases b5 <;>
    exact ⟨_, _, rfl, rfl, by decide⟩

theorem c10_leave_returns_boolean_witness :
    ∃ (v : Bool) (w1 : World),
      drop_realtime_scheduling true leaveSchedulerRefused
        (set_realtime_scheduling enterOk 0 loweredWorld).world = .returned v w1 ∧
      v = (leaveSchedulerRefused.seteuid_up && leaveSchedulerRefused.setegid_up &&
            leaveSchedulerRefused.setscheduler_ok && leaveSchedulerRefused.seteuid_down &&
            leaveSchedulerRefused.setegid_down) ∧
      (v = true ↔ (leaveSchedulerRefused.seteuid_up = true ∧
            leaveSchedulerRefused.setegid_up = true ∧
            leaveSchedulerRefused.setscheduler_ok = true ∧
            leaveSchedulerRefused.seteuid_down = true ∧
            leaveSchedulerRefused.setegid_down = true)) :=
  c10_leave_returns_boolean true leaveSchedulerRefused
    (set_realtime_scheduling enterOk 0 loweredWorld).world (by decide) (by decide)

/-! ## Lemmas: deadline waiter -/

theorem pollEvents_zero (clock : Nat → Int) (k : Nat) :
    pollEvents clock k 0 = [.GetCurrentTime (clock k)] := by
  simp [pollEvents, List.range_succ]

theorem pollEvents_succ (clock : Nat → Int) (k m : Nat) :
    pollEvents clock k (m + 1) = .GetCurrentTime (clock k) :: pollEvents clock (k + 1) m := by
  unfold pollEvents
  rw [List.range_succ_eq_map, List.map_cons, List.map_map]
  congr 1
  apply List.map_congr_left
  intro j _
  simp only [Function.comp, Nat.add_zero]
  congr 2
  omega

theorem sleeps_pollEvents (clock : Nat → Int) (m : Nat) :
    ∀ k, sleeps (pollEvents clock k m) = [] := by
  induction m with
  | zero => intro k; simp [pollEvents_zero, sleeps]
  | succ m ih => intro k; simp [pollEvents_succ, sleeps, ih]

theorem readings_pollEvents (clock : Nat → Int) (m : Nat) :
    ∀ k, readings (pollEvents clock k m) = (List.range (m + 1)).map (fun j => clock (k + j)) := by
  induction m with
  | zero => intro k; simp [pollEvents_zero, readings, List.range_succ]
  | succ m ih =>
    intro k
    rw [pollEvents_succ, readings, ih (k + 1), List.range_succ_eq_map (m + 1), List.map_cons,
      List.map_map]
    congr 1
    apply List.map_congr_left
    intro j _
    simp only [Function.comp]
    congr 1
    omega

/-- The polling loop ends at the first reading outside the window, provided
the fuel reaches that far. -/
theorem pollLoop_of_exit (clock : Nat → Int) (s e : Int) (m : Nat) :
    ∀ (fuel k : Nat) (events : List WaitEvent), m < fuel →
      (∀ j, j < m → inWindow s e (clock (k + j))) → ¬ inWindow s e (clock (k + m)) →
      pollLoop clock s e fuel k events = some (events ++ pollEvents clock k m) := by
  induction m with
  | zero =>
    intro fuel k events hf _ hex
    obtain ⟨f, rfl⟩ : ∃ f, fuel = f + 1 := ⟨fuel - 1, by omega⟩
    have hex2 : ¬ (clock k ≥ s ∧ clock k < e) := by simpa [inWindow] using hex
    simp only [pollLoop, hex2, if_false, pollEvents_zero]
  | succ m ih =>
    intro fuel k events hf hin hex
    obtain ⟨f, rfl⟩ : ∃ f, fuel = f + 1 := ⟨fuel - 1, by omega⟩
    have h0 : clock k ≥ s ∧ clock k < e := by simpa [inWindow] using hin 0 (by omega)
    simp only [pollLoop, h0, and_self, if_true]
    rw [ih f (k + 1) _ (by omega)
      (fun j hj => by have := hin (j + 1) (by omega); rwa [show k + (j + 1) = k + 1 + j by omega] at this)
      (by rwa [show k + (m + 1) = k + 1 + m by omega] at hex),
      pollEvents_succ, List.append_assoc]
    rfl

/-- The polling loop is still running while every reading so far lies in the
window. -/
theorem pollLoop_running (clock : Nat → Int) (s e : Int) (fuel : Nat) :
    ∀ (k : Nat) (events : List WaitEvent),
      (∀ j, j < fuel → inWindow s e (clock (k + j))) →
      pollLoop clock s e fuel k events = none := by
  induction fuel with
  | zero => intro k events _; rfl
  | succ f ih =>
    intro k events hin
    have h0 : clock k ≥ s ∧ clock k < e := by simpa [inWindow] using hin 0 (by omega)
    simp only [pollLoop, h0, and_self, if_true]
    exact ih (k + 1) _
      (fun j hj => by have := hin (j + 1) (by omega); rwa [show k + (j + 1) = k + 1 + j by omega] at this)

/-- Whenever the polling loop ends, it has appended some consecutive clock
readings and nothing else. -/
theorem pollLoop_some (clock : Nat → Int) (s e : Int) (fuel : Nat) :
    ∀ (k : Nat) (events out : List WaitEvent),
      pollLoop clock s e fuel k events = some out →
      ∃ m, m < fuel ∧ out = events ++ pollEvents clock k m ∧
        (∀ j, j < m → inWindow s e (clock (k + j))) ∧ ¬ inWindow s e (clock (k + m)) := by
  induction fuel with
  | zero => intro k events out h; simp [pollLoop] at h
  | succ f ih =>
    intro k events out h
    by_cases h0 : clock k ≥ s ∧ clock k < e
    · simp only [pollLoop, h0, and_self, if_true] at h
      obtain ⟨m, hm, hout, hin, hex⟩ := ih (k + 1) _ out h
      refine ⟨m + 1, by omega, ?_, ?_, ?_⟩
      · rw [hout, pollEvents_succ, List.append_assoc]
        rfl
      · intro j hj
        cases j with
        | zero => simpa [inWindow] using h0
        | succ j =>
          have := hin j (by omega)
          rwa [show k + 1 + j = k + (j + 1) by omega] at this
      · rwa [show k + 1 + m = k + (m + 1) by omega] at hex
    · simp only [pollLoop, h0, if_false] at h
      refine ⟨0, by omega, ?_, ?_, ?_⟩
      · rw [pollEvents_zero]
        exact (Option.some.inj h).symm
      · intro j hj
        omega
      · simpa [inWindow] using h0

theorem WaitUntil_future (clock : Nat → Int) (fuel : Nat) (endTime : Int)
    (h0 : clock 0 ≤ endTime) :
    WaitUntil clock fuel endTime
      = pollLoop clock (clock 0) endTime fuel 1 (waitPrefix clock endTime) := by
  have hn : ¬ (clock 0 > endTime) := by omega
  unfold WaitUntil waitPrefix
  simp only [hn, if_false]

theorem sleeps_waitPrefix (clock : Nat → Int) (endTime : Int) :
    sleeps (waitPrefix clock endTime) =
      if endTime - clock 0 > NANOSLEEP_THRES then
        [{ tv_sec := (endTime - clock 0 - NANOSLEEP_THRES) / 1000000
           tv_nsec := ((endTime - clock 0 - NANOSLEEP_THRES) % 1000000) * 1000 }]
      else [] := by
  unfold waitPrefix
  split <;> simp [sleeps]

theorem readings_waitPrefix (clock : Nat → Int) (endTime : Int) :
    readings (waitPrefix clock endTime) = [clock 0] := by
  unfold waitPrefix
  split <;> simp [readings]

theorem sleeps_append (a b : List WaitEvent) : sleeps (a ++ b) = sleeps a ++ sleeps b := by
  induction a with
  | nil => rfl
  | cons x rest ih => cases x <;> simp [sleeps, ih]

theorem readings_append (a b : List WaitEvent) :
    readings (a ++ b) = readings a ++ readings b := by
  induction a with
  | nil => rfl
  | cons x rest ih => cases x <;> simp [readings, ih]

/-! ## Properties of the deadline waiter -/

/-- C11: for every target `endTime` and every clock whose first reading is
strictly greater than `endTime`, `WaitUntil endTime` returns after that single
clock reading, whatever the fuel: it requests no sleep and reads the clock no
further. -/
theorem c11_past_target_single_reading (clock : Nat → Int) (fuel : Nat) (endTime : Int)
    (h : clock 0 > endTime) :
    ∃ events, WaitUntil clock fuel endTime = some events ∧
      events = [.GetCurrentTime (clock 0)] ∧ sleeps events = [] ∧
      readings events = [clock 0] := by
  refine ⟨[.GetCurrentTime (clock 0)], ?_, rfl, rfl, rfl⟩
  unfold WaitUntil
  simp only [h, if_true]

theorem c11_past_target_single_reading_witness :
    ∃ events, WaitUntil (clockOf [500, 600] 700) 0 499 = some events ∧
      events = [.GetCurrentTime (clockOf [500, 600] 700 0)] ∧ sleeps events = [] ∧
      readings events = [clockOf [500, 600] 700 0] :=
  c11_past_target_single_reading (clockOf [500, 600] 700) 0 499 (by decide)

/-- C12: for every target `endTime` not before the first clock reading
`startTime = clock 0`, on every clock that has some later reading outside the
interval from `startTime` to `endTime` (at or after the target, or below
`startTime`), `WaitUntil` returns: there is a first polled reading `clock n`,
`n ≥ 1`, that is at or after `endTime` or below `startTime`; every earlier
polled reading lies in the interval; with fuel for `n` iterations the call
returns having read exactly `clock 0, ..., clock n`, and with less fuel the loop
is still running. -/
theorem c12_returns_at_first_exit (clock : Nat → Int) (endTime : Int) (k : Nat)
    (h0 : clock 0 ≤ endTime) (hk1 : 1 ≤ k) (hk : ¬ inWindow (clock 0) endTime (clock k)) :
    ∃ n, 1 ≤ n ∧ n ≤ k ∧ (clock n ≥ endTime ∨ clock n < clock 0) ∧
      (∀ j, 1 ≤ j → j < n → clock 0 ≤ clock j ∧ clock j < endTime) ∧
      (∀ fuel, n ≤ fuel → ∃ events, WaitUntil clock fuel endTime = some events ∧
        readings events = (List.range (n + 1)).map clock) ∧
      (∀ fuel, fuel < n → WaitUntil clock fuel endTime = none) := by
  have hex : ∃ m, ¬ inWindow (clock 0) endTime (clock (1 + m)) :=
    ⟨k - 1, by rwa [show 1 + (k - 1) = k by omega]⟩
  have hmin : ∀ j, j < Nat.find hex → inWindow (clock 0) endTime (clock (1 + j)) :=
    fun j hj => not_not.mp (Nat.find_min hex hj)
  have hspec : ¬ inWindow (clock 0) endTime (clock (1 + Nat.find hex)) := Nat.find_spec hex
  have hle : Nat.find hex ≤ k - 1 := Nat.find_min' hex (by rwa [show 1 + (k - 1) = k by omega])
  refine ⟨1 + Nat.find hex, by omega, by omega, ?_, ?_, ?_, ?_⟩
  · unfold inWindow at hspec
    omega
  · intro j hj1 hjn
    have := hmin (j - 1) (by omega)
    rwa [show 1 + (j - 1) = j by omega] at this
  · intro fuel hfuel
    refine ⟨waitPrefix clock endTime ++ pollEvents clock 1 (Nat.find hex), ?_, ?_⟩
    · rw [WaitUntil_future clock fuel endTime h0]
      exact pollLoop_of_exit clock (clock 0) endTime (Nat.find hex) fuel 1 _ (by omega) hmin hspec
    · rw [readings_append, readings_waitPrefix, readings_pollEvents,
        List.range_succ_eq_map (1 + Nat.find hex), List.map_cons, List.map_map]
      rw [show 1 + Nat.find hex = Nat.find hex + 1 by omega]
      simp only [List.singleton_append, List.cons.injEq, true_and]
      apply List.map_congr_left
      intro j _
      simp only [Function.comp]
      congr 1
      omega
  · intro fuel hfuel
    rw [WaitUntil_future clock fuel endTime h0]
    exact pollLoop_running clock (clock 0) endTime fuel 1 _ (fun j hj => hmin j (by omega))

theorem c12_returns_at_first_exit_witness :
    ∃ n, 1 ≤ n ∧ n ≤ 3 ∧
      (clockOf [100, 120, 150, 90] 95 n ≥ 200 ∨
        clockOf [100, 120, 150, 90] 95 n < clockOf [100, 120, 150, 90] 95 0) ∧
      (∀ j, 1 ≤ j → j < n → clockOf [100, 120, 150, 90] 95 0 ≤ clockOf [100, 120, 150, 90] 95 j ∧
        clockOf [100, 120, 150, 90] 95 j < 200) ∧
      (∀ fuel, n ≤ fuel → ∃ events,
        WaitUntil (clockOf [100, 120, 150, 90] 95) fuel 200 = some events ∧
        readings events = (List.range (n + 1)).map (clockOf [100, 120, 150, 90] 95)) ∧
      (∀ fuel, fuel < n → WaitUntil (clockOf [100, 120, 150, 90] 95) fuel 200 = none) :=
  c12_returns_at_first_exit (clockOf [100, 120, 150, 90] 95) 200 3 (by decide) (by decide)
    (by decide)

/-- C13: for every target `endTime` not before the first clock reading, with
`remaining = endTime - clock 0` microseconds: whenever `WaitUntil` returns, its
events are the first reading, then one sleep request if and only if
`remaining > NANOSLEEP_THRES`, then the polled readings; so it requests at most
one sleep, before the first poll; and the requested timespec satisfies
`tv_sec * 10^9 + tv_nsec = (remaining - NANOSLEEP_THRES) * 1000` with
`0 ≤ tv_nsec < 10^9`. -/
theorem c13_one_sleep_before_polling (clock : Nat → Int) (fuel : Nat) (endTime : Int)
    (events : List WaitEvent) (h0 : clock 0 ≤ endTime)
    (h : WaitUntil clock fuel endTime = some events) :
    (sleeps events ≠ [] ↔ endTime - clock 0 > NANOSLEEP_THRES) ∧
    (sleeps events).length ≤ 1 ∧
    (∃ m, events = .GetCurrentTime (clock 0) ::
        ((sleeps events).map WaitEvent.nanosleep ++ pollEvents clock 1 m)) ∧
    (∀ ts ∈ sleeps events,
      ts.tv_sec * 10 ^ 9 + ts.tv_nsec = (endTime - clock 0 - NANOSLEEP_THRES) * 1000 ∧
      0 ≤ ts.tv_nsec ∧ ts.tv_nsec < 10 ^ 9) := by
  rw [WaitUntil_future clock fuel endTime h0] at h
  obtain ⟨m, _, hout, _, _⟩ := pollLoop_some clock (clock 0) endTime fuel 1 _ events h
  have hs : sleeps events = sleeps (waitPrefix clock endTime) := by
    rw [hout, sleeps_append, sleeps_pollEvents, List.append_nil]
  rw [hs, sleeps_waitPrefix]
  by_cases hgt : endTime - clock 0 > NANOSLEEP_THRES
  · simp only [hgt, if_true]
    refine ⟨by simp, by simp, ⟨m, ?_⟩, ?_⟩
    · rw [hout]
      simp [waitPrefix, hgt]
    · intro ts hts
      rw [List.mem_singleton] at hts
      subst hts
      simp only
      unfold NANOSLEEP_THRES at hgt ⊢
      omega
  · simp only [hgt, if_false]
    refine ⟨by simp, by simp, ⟨m, ?_⟩, by simp⟩
    rw [hout]
    simp [waitPrefix, hgt]

theorem c13_one_sleep_before_polling_witness :
    WaitUntil (clockOf [100] 5000000) 1 3000100 =
      some [.GetCurrentTime 100, .nanosleep { tv_sec := 2, tv_nsec := 980000000 },
            .GetCurrentTime 5000000] ∧
    (∀ ts ∈ sleeps [WaitEvent.GetCurrentTime 100,
        .nanosleep { tv_sec := 2, tv_nsec := 980000000 }, .GetCurrentTime 5000000],
      ts.tv_sec * 10 ^ 9 + ts.tv_nsec
        = (3000100 - clockOf [100] 5000000 0 - NANOSLEEP_THRES) * 1000 ∧
      0 ≤ ts.tv_nsec ∧ ts.tv_nsec < 10 ^ 9) :=
  ⟨by decide,
   (c13_one_sleep_before_polling (clockOf [100] 5000000) 1 3000100 _ (by decide)
      (by decide)).2.2.2⟩

/-! ## Further properties of the FSK encoders -/

/-- C14: for the byte `0x00` and every bit time `t` with `0 < t` and
`9 * t ≤ 65535`, `ByteToFsk` appends exactly `[9 * t, t]`: the first delay is at
least `9 * t` (start bit merged with the eight zero data bits) and the final
delay is exactly `t` (the stop bit alone). -/
theorem c14_zero_byte (L : List Nat) (t : Nat) (_ht : 0 < t) (h9 : 9 * t ≤ 65535) :
    appendedDelays 0x00 L t = [9 * t, t] ∧
    ByteToFsk 0x00 L t = L ++ [9 * t, t] ∧
    (∃ first, (appendedDelays 0x00 L t).head? = some first ∧ 9 * t ≤ first) ∧
    (appendedDelays 0x00 L t).getLast? = some t := by
  have hrl : runLengths (frame 0x00) = [9, 1] := by decide
  have happ : appendedDelays 0x00 L t = [9 * t, t] := by
    rw [appendedDelays_eq_mul 0x00 L t (by decide) h9, hrl]
    simp
  have hfull : ByteToFsk 0x00 L t = L ++ [9 * t, t] := by
    have h := ByteToFsk_eq_unit 0x00 L t
    rw [← appendedDelays_eq_unit 0x00 L t, happ] at h
    exact h
  refine ⟨happ, hfull, ⟨9 * t, ?_, Nat.le_refl _⟩, ?_⟩
  · rw [happ]
    rfl
  · rw [happ]
    rfl

theorem c14_zero_byte_witness :
    appendedDelays 0x00 [5] 7281 = [9 * 7281, 7281] ∧
    ByteToFsk 0x00 [5] 7281 = [5] ++ [9 * 7281, 7281] ∧
    (∃ first, (appendedDelays 0x00 [5] 7281).head? = some first ∧ 9 * 7281 ≤ first) ∧
    (appendedDelays 0x00 [5] 7281).getLast? = some 7281 :=
  c14_zero_byte [5] 7281 (by decide) (by decide)

/-- C15: for the byte `0xFF` and every bit time `t` with `0 < t` and
`9 * t ≤ 65535`, `ByteToFsk` appends exactly `[t, 9 * t]`: the first delay is
exactly `t` (the start bit alone) and the final delay is at least `9 * t`
(the eight one data bits merged with the stop bit). -/
theorem c15_all_ones_byte (L : List Nat) (t : Nat) (_ht : 0 < t) (h9 : 9 * t ≤ 65535) :
    appendedDelays 0xFF L t = [t, 9 * t] ∧
    ByteToFsk 0xFF L t = L ++ [t, 9 * t] ∧
    (appendedDelays 0xFF L t).head? = some t ∧
    (∃ final, (appendedDelays 0xFF L t).getLast? = some final ∧ 9 * t ≤ final) := by
  have hrl : runLengths (frame 0xFF) = [1, 9] := by decide
  have happ : appendedDelays 0xFF L t = [t, 9 * t] := by
    rw [appendedDelays_eq_mul 0xFF L t (by decide) h9, hrl]
    simp
  have hfull : ByteToFsk 0xFF L t = L ++ [t, 9 * t] := by
    have h := ByteToFsk_eq_unit 0xFF L t
    rw [← appendedDelays_eq_unit 0xFF L t, happ] at h
    exact h
  refine ⟨happ, hfull, ?_, ⟨9 * t, ?_, Nat.le_refl _⟩⟩
  · rw [happ]
    rfl
  · rw [happ]
    rfl

theorem c15_all_ones_byte_witness :
    appendedDelays 0xFF [5] 16 = [16, 9 * 16] ∧
    ByteToFsk 0xFF [5] 16 = [5] ++ [16, 9 * 16] ∧
    (appendedDelays 0xFF [5] 16).head? = some 16 ∧
    (∃ final, (appendedDelays 0xFF [5] 16).getLast? = some final ∧ 9 * 16 ≤ final) :=
  c15_all_ones_byte [5] 16 (by decide) (by decide)

/-- The unit encodings of all 256 bytes have an even number of entries,
between two and ten. -/
theorem unit_encoding_length_facts : ∀ b, b < 256 →
    (ByteToFsk b [] 1).length % 2 = 0 ∧ 2 ≤ (ByteToFsk b [] 1).length ∧
    (ByteToFsk b [] 1).length ≤ 10 := by
  decide!

theorem appendedDelays_length (b : Nat) (L : List Nat) (t : Nat) :
    (appendedDelays b L t).length = (ByteToFsk b [] 1).length := by
  rw [appendedDelays_eq_unit, List.length_map]

theorem blockEncoding_append (d : Nat) (l1 l2 : List Nat) :
    blockEncoding d (l1 ++ l2) = blockEncoding d l1 ++ blockEncoding d l2 := by
  simp [blockEncoding]

theorem blockEncoding_cons (d b : Nat) (rest : List Nat) :
    blockEncoding d (b :: rest) = ByteToFsk b [] d ++ blockEncoding d rest := by
  simp [blockEncoding]

theorem blockEncoding_length_facts (d : Nat) (data : List Nat) (hb : ∀ b ∈ data, b < 256) :
    (blockEncoding d data).length % 2 = 0 ∧ 2 * data.length ≤ (blockEncoding d data).length ∧
    (blockEncoding d data).length ≤ 10 * data.length := by
  induction data with
  | nil => simp [blockEncoding]
  | cons b rest ih =>
    obtain ⟨h1, h2, h3⟩ := ih (fun x hx => hb x (List.mem_cons_of_mem b hx))
    obtain ⟨u1, u2, u3⟩ := unit_encoding_length_facts b (hb b (List.mem_cons_self b rest))
    have hlen : (ByteToFsk b [] d).length = (ByteToFsk b [] 1).length := by
      rw [ByteToFsk_length b [] d]
      simp
    rw [blockEncoding_cons, List.length_append, List.length_cons, hlen]
    omega

/-- C18: for every byte `b`, list `L` and bit time `t`, `ByteToFsk` appends an
even number of delays, at least 2 and at most 10; and whenever `DataBlockToFsk`
returns true for a buffer `data` of bytes, the reported length is the length
of the produced sequence, it is even and lies between `2 * n` and `10 * n` for
`n = data.length`, and for every index `i < n` the sequence is the encoding of
the first `i` bytes, of even length, followed by the encoding of `data[i]` and
the encoding of the remaining bytes: every byte's encoding starts at an even
index. -/
theorem c18_even_number_of_delays (d : Nat) (data : List Nat) (a : List Nat) (l : Nat)
    (seq : List Nat) (len : Nat) (hb : ∀ b ∈ data, b < 256)
    (hret : DataBlockToFsk d (some data) data.length (some a) (some l)
      = .returned true (some seq) (some len)) :
    (∀ (b : Nat) (L : List Nat) (t : Nat), b < 256 →
      (appendedDelays b L t).length % 2 = 0 ∧ 2 ≤ (appendedDelays b L t).length ∧
      (appendedDelays b L t).length ≤ 10) ∧
    len = seq.length ∧ len % 2 = 0 ∧ 2 * data.length ≤ len ∧ len ≤ 10 * data.length ∧
    ∀ (i : Nat) (h : i < data.length),
      seq = blockEncoding d (data.take i) ++ ByteToFsk data[i] [] d
              ++ blockEncoding d (data.drop (i + 1)) ∧
      (blockEncoding d (data.take i)).length % 2 = 0 := by
  have hne : data ≠ [] := by
    rintro rfl
    simp [DataBlockToFsk] at hret
  rw [DataBlockToFsk_valid d data a l hne] at hret
  have hseq : seq = blockEncoding d data ∧ len = (blockEncoding d data).length := by
    split at hret
    · injection hret with _ h2 h3
      exact ⟨(Option.some.inj h2).symm, (Option.some.inj h3).symm⟩
    · exact absurd hret (by simp)
  obtain ⟨hs, hl⟩ := hseq
  obtain ⟨e1, e2, e3⟩ := blockEncoding_length_facts d data hb
  refine ⟨?_, by rw [hl, hs], by rw [hl]; exact e1, by rw [hl]; exact e2,
    by rw [hl]; exact e3, ?_⟩
  · intro b L t hb256
    rw [appendedDelays_length]
    exact unit_encoding_length_facts b hb256
  · intro i h
    constructor
    · have hsplit : data = data.take i ++ data[i] :: data.drop (i + 1) := by
        rw [← List.drop_eq_getElem_cons h, List.take_append_drop]
      rw [hs]
      conv_lhs => rw [hsplit]
      rw [blockEncoding_append, blockEncoding_cons, List.append_assoc]
    · exact (blockEncoding_length_facts d (data.take i)
        (fun x hx => hb x (List.mem_of_mem_take hx))).1

theorem c18_even_number_of_delays_witness :
    DataBlockToFsk 16 (some [0x00, 0x55, 0xFF]) 3 (some []) (some 0)
      = .returned true
          (some [144, 16, 16, 16, 16, 16, 16, 16, 16, 16, 16, 16, 16, 144]) (some 14) ∧
    14 % 2 = 0 ∧ 2 * [0x00, 0x55, 0xFF].length ≤ 14 ∧ 14 ≤ 10 * [0x00, 0x55, 0xFF].length :=
  have h := c18_even_number_of_delays 16 [0x00, 0x55, 0xFF] [] 0
    [144, 16, 16, 16, 16, 16, 16, 16, 16, 16, 16, 16, 16, 144] 14 (by decide) (by decide)
  ⟨by decide, h.2.2.1, h.2.2.2.1, h.2.2.2.2.1⟩

/-! ## Further properties of the privilege and scheduling controller -/

/-- The statics are never changed by `drop_realtime_scheduling`, however it
ends. -/
theorem drop_realtime_scheduling_vars (a : Bool) (os : LeaveOs) (w : World) :
    (drop_realtime_scheduling a os w).world.vars = w.vars := by
  obtain ⟨proc, ⟨us, e, u, eg1, g, rs, op, opr⟩, calls⟩ := w
  obtain ⟨b1, b2, b3, b4, b5⟩ := os
  cases a <;> cases us <;> cases rs <;> cases b1 <;> cases b2 <;> cases b3 <;> cases b4 <;>
    cases b5 <;> rfl

/-- With both flags set and every call accepted, `drop_realtime_scheduling`
re-elevates, restores the scheduler and re-drops. -/
theorem drop_realtime_scheduling_full (a : Bool) (w : World)
    (hu : w.vars.uids_set = true) (hr : w.vars.realtime_sched_set = true) :
    drop_realtime_scheduling a leaveOk w = .returned true
      { proc := { w.proc with
          euid := w.vars.uid, egid := w.vars.gid
          policy := SCHED_OTHER, priority := w.vars.old_sched_priority }
        vars := w.vars
        calls := w.calls ++
          [(.seteuid w.vars.euid, true), (.setegid w.vars.egid, true),
           (.sched_setscheduler SCHED_OTHER w.vars.old_sched_priority, true),
           (.seteuid w.vars.uid, true), (.setegid w.vars.gid, true)] } := by
  obtain ⟨proc, ⟨us, e, u, eg1, g, rs, op, opr⟩, calls⟩ := w
  simp only at hu hr
  subst hu hr
  simp only [drop_realtime_scheduling, leaveOk, bind, pure, getVars, seteuid, setegid,
    sched_setscheduler]
  simp

/-- C16: `drop_root_privileges`, for every identity state: if the operating
system accepts both identity changes it returns true, the statics hold the
effective and real user and group identifiers that were current at the call,
the effective identifiers afterwards equal the real ones, the real ones are
unchanged, and `uids_set` is true (the Lowered state); if the operating system
refuses either change the process terminates with `exit(1)` and `uids_set` is
left as it was. -/
theorem c16_lower_privileges (os : LowerOs) (w : World) :
    (os.seteuid_ok = true ∧ os.setegid_ok = true →
      ∃ w1, drop_root_privileges os w = .returned true w1 ∧
        w1.vars.euid = w.proc.euid ∧ w1.vars.uid = w.proc.ruid ∧
        w1.vars.egid = w.proc.egid ∧ w1.vars.gid = w.proc.rgid ∧
        w1.proc.euid = w.proc.ruid ∧ w1.proc.egid = w.proc.rgid ∧
        w1.proc.ruid = w.proc.ruid ∧ w1.proc.rgid = w.proc.rgid ∧
        w1.vars.uids_set = true ∧ Lowered w1) ∧
    (¬ (os.seteuid_ok = true ∧ os.setegid_ok = true) →
      ∃ w1, drop_root_privileges os w = .terminated (.exit 1) w1 ∧
        w1.vars.uids_set = w.vars.uids_set ∧
        (drop_root_privileges os w).value = none) := by
  obtain ⟨⟨ru, eu, rg, eg, pol, pri, ml⟩, ⟨us, e, u, eg1, g, rs, op, opr⟩, calls⟩ := w
  obtain ⟨b1, b2⟩ := os
  cases b1 <;> cases b2
  · exact ⟨fun h => absurd h.1 (by decide), fun _ => ⟨_, rfl, rfl, rfl⟩⟩
  · exact ⟨fun h => absurd h.1 (by decide), fun _ => ⟨_, rfl, rfl, rfl⟩⟩
  · exact ⟨fun h => absurd h.2 (by decide), fun _ => ⟨_, rfl, rfl, rfl⟩⟩
  · exact ⟨fun _ => ⟨_, rfl, rfl, rfl, rfl, rfl, rfl, rfl, rfl, rfl, rfl,
      ⟨rfl, rfl, rfl, rfl, rfl⟩⟩, fun h => absurd ⟨rfl, rfl⟩ h⟩

/-- C19: `drop_realtime_scheduling` called in the Lowered state with
`realtime_sched_set` false returns true in the very world it was called in: no
operating-system call, no change to the statics.  No controller function
clears `realtime_sched_set`; so once it is set, a `drop_realtime_scheduling`
call whose operating-system calls are accepted performs the five calls of the
re-elevate / restore / re-drop sequence, and so does the next such call,
without an entry in between. -/
theorem c19_leave_without_entry_is_idle (a : Bool) (os : LeaveOs) (w : World)
    (hu : w.vars.uids_set = true) :
    (w.vars.realtime_sched_set = false →
      drop_realtime_scheduling a os w = .returned true w ∧
      callsSince w (drop_realtime_scheduling a os w).world = []) ∧
    (drop_realtime_scheduling a os w).world.vars = w.vars ∧
    (∀ (os1 : EnterOs) (priority : Int), w.vars.realtime_sched_set = true →
      (set_realtime_scheduling os1 priority w).world.vars.realtime_sched_set = true) ∧
    (∀ os0 : LowerOs, w.vars.realtime_sched_set = true →
      (drop_root_privileges os0 w).world.vars.realtime_sched_set = true) ∧
    (w.vars.realtime_sched_set = true →
      (callsSince w (drop_realtime_scheduling a os w).world).head?
        = some (.seteuid w.vars.euid, os.seteuid_up)) ∧
    (w.vars.realtime_sched_set = true →
      ∃ w1 w2, drop_realtime_scheduling a leaveOk w = .returned true w1 ∧
        callsSince w w1 =
          [(.seteuid w.vars.euid, true), (.setegid w.vars.egid, true),
           (.sched_setscheduler SCHED_OTHER w.vars.old_sched_priority, true),
           (.seteuid w.vars.uid, true), (.setegid w.vars.gid, true)] ∧
        drop_realtime_scheduling a leaveOk w1 = .returned true w2 ∧
        callsSince w1 w2 =
          [(.seteuid w.vars.euid, true), (.setegid w.vars.egid, true),
           (.sched_setscheduler SCHED_OTHER w.vars.old_sched_priority, true),
           (.seteuid w.vars.uid, true), (.setegid w.vars.gid, true)]) := by
  refine ⟨?_, drop_realtime_scheduling_vars a os w, ?_, ?_, ?_, ?_⟩
  · intro hr
    obtain ⟨proc, ⟨us, e, u, eg1, g, rs, op, opr⟩, calls⟩ := w
    simp only at hu hr
    subst hu hr
    have h : drop_realtime_scheduling a os ⟨proc, ⟨true, e, u, eg1, g, false, op, opr⟩, calls⟩
        = .returned true ⟨proc, ⟨true, e, u, eg1, g, false, op, opr⟩, calls⟩ := rfl
    rw [h]
    exact ⟨rfl, by simp [callsSince, Outcome.world]⟩
  · intro os1 priority hr
    obtain ⟨⟨ru, eu, rg, eg, pol, pri, ml⟩, ⟨us, e, u, eg1, g, rs, op, opr⟩, calls⟩ := w
    simp only at hu hr
    subst hu hr
    obtain ⟨b1, b2, b3, b4, mx, b5, b6, b7, b8⟩ := os1
    cases b1 <;> cases b2 <;> cases b4 <;> cases b5 <;> cases b6 <;> cases b7 <;> cases b8 <;> rfl
  · intro os0 hr
    obtain ⟨⟨ru, eu, rg, eg, pol, pri, ml⟩, ⟨us, e, u, eg1, g, rs, op, opr⟩, calls⟩ := w
    simp only at hu hr
    subst hu hr
    obtain ⟨b1, b2⟩ := os0
    cases b1 <;> cases b2 <;> rfl
  · intro hr
    obtain ⟨proc, ⟨us, e, u, eg1, g, rs, op, opr⟩, calls⟩ := w
    simp only at hu hr
    subst hu hr
    obtain ⟨b1, b2, b3, b4, b5⟩ := os
    cases b1 <;> cases b2 <;> cases b3 <;> cases b4 <;> cases b5 <;>
      simp [callsSince, drop_realtime_scheduling, bind, pure, getVars, seteuid, setegid,
        sched_setscheduler, Outcome.world]
  · intro hr
    have h1 := drop_realtime_scheduling_full a w hu hr
    refine ⟨_, _, h1, ?_, drop_realtime_scheduling_full a _ hu hr, ?_⟩
    · simp [callsSince]
    · simp [callsSince]

theorem c19_leave_without_entry_is_idle_witness :
    drop_realtime_scheduling true leaveOk loweredWorld = .returned true loweredWorld ∧
    callsSince loweredWorld (drop_realtime_scheduling true leaveOk loweredWorld).world = [] :=
  (c19_leave_without_entry_is_idle true leaveOk loweredWorld (by decide)).1 (by decide)

/-! ## Lemmas: high-speed parameter parser -/

theorem digitChar_facts : ∀ j, j < 10 →
    (Nat.digitChar j).isDigit = true ∧ (Nat.digitChar j).toNat - 48 = j ∧
    isspace (Nat.digitChar j) = false ∧ Nat.digitChar j ≠ '-' ∧ Nat.digitChar j ≠ '+' := by
  decide

theorem toDigitsCore_append (fuel : Nat) :
    ∀ (n : Nat) (ds : List Char),
      Nat.toDigitsCore 10 fuel n ds = Nat.toDigitsCore 10 fuel n [] ++ ds := by
  induction fuel with
  | zero => intro n ds; simp [Nat.toDigitsCore]
  | succ f ih =>
    intro n ds
    simp only [Nat.toDigitsCore]
    split
    · simp
    · rw [ih (n / 10) (Nat.digitChar (n % 10) :: ds), ih (n / 10) [Nat.digitChar (n % 10)]]
      simp

/-- Reading back the digits that `Nat.toDigitsCore` writes in front of `ds`
adds the number written to the accumulator, shifted by the digits written. -/
theorem strtolDigits_toDigitsCore (fuel : Nat) :
    ∀ n, n < fuel → ∃ k, ∀ (acc : Nat) (ds : List Char),
      strtolDigits acc (Nat.toDigitsCore 10 fuel n ds) = strtolDigits (acc * 10 ^ k + n) ds := by
  induction fuel with
  | zero => intro n h; omega
  | succ f ih =>
    intro n hn
    by_cases h0 : n / 10 = 0
    · refine ⟨1, ?_⟩
      intro acc ds
      have hlt : n < 10 := by omega
      obtain ⟨hd, hv, _⟩ := digitChar_facts n hlt
      have hmod : n % 10 = n := Nat.mod_eq_of_lt hlt
      simp only [Nat.toDigitsCore, h0, if_true, hmod, strtolDigits, hd, hv, pow_one]
    · obtain ⟨k, hk⟩ := ih (n / 10) (by omega)
      refine ⟨k + 1, ?_⟩
      intro acc ds
      obtain ⟨hd, hv, _⟩ := digitChar_facts (n % 10) (Nat.mod_lt n (by norm_num))
      simp only [Nat.toDigitsCore, h0, if_false]
      rw [hk acc (Nat.digitChar (n % 10) :: ds)]
      simp only [strtolDigits, hd, if_true, hv]
      congr 1
      have := Nat.div_add_mod n 10
      rw [pow_succ]
      nlinarith [this]

theorem toDigitsCore_head (fuel : Nat) :
    ∀ (n : Nat) (ds : List Char), n < fuel →
      ∃ j tl, j < 10 ∧ Nat.toDigitsCore 10 fuel n ds = Nat.digitChar j :: tl := by
  induction fuel with
  | zero => intro n ds h; omega
  | succ f ih =>
    intro n ds hn
    by_cases h0 : n / 10 = 0
    · exact ⟨n % 10, ds, Nat.mod_lt n (by norm_num), by simp [Nat.toDigitsCore, h0]⟩
    · obtain ⟨j, tl, hj, htl⟩ := ih (n / 10) (Nat.digitChar (n % 10) :: ds) (by omega)
      exact ⟨j, tl, hj, by simp only [Nat.toDigitsCore, h0, if_false]; exact htl⟩

theorem decimalText_append (n : Nat) (rest : List Char) :
    decimalText n ++ rest = Nat.toDigitsCore 10 (n + 1) n rest := by
  unfold decimalText Nat.toDigits
  exact (toDigitsCore_append (n + 1) n rest).symm

theorem strtolDigits_stop (acc : Nat) (rest : List Char) (hrest : (deref rest).isDigit = false) :
    strtolDigits acc rest = (acc, rest) := by
  cases rest with
  | nil => rfl
  | cons c tl =>
    have : c.isDigit = false := by simpa [deref] using hrest
    simp [strtolDigits, this]

/-- `strtol` reads back a decimal text that is followed by the end of the
string or by a character that is not a digit: it returns the number, or
`LONG_MAX` when the number is larger, and stops right after the text. -/
theorem strtol_decimalText (n : Nat) (rest : List Char) (hrest : (deref rest).isDigit = false) :
    strtol (decimalText n ++ rest) = (min LONG_MAX (n : Int), rest) ∧
    rest ≠ decimalText n ++ rest := by
  obtain ⟨j, tl, hj, htl⟩ := toDigitsCore_head (n + 1) n rest (by omega)
  obtain ⟨hd, _, hsp, hminus, hplus⟩ := digitChar_facts j hj
  obtain ⟨k, hk⟩ := strtolDigits_toDigitsCore (n + 1) n (by omega)
  have hval : strtolDigits 0 (Nat.digitChar j :: tl) = (n, rest) := by
    rw [← htl, hk 0 rest, Nat.zero_mul, Nat.zero_add]
    exact strtolDigits_stop n rest hrest
  constructor
  · rw [decimalText_append, htl]
    unfold strtol
    have hdw : List.dropWhile isspace (Nat.digitChar j :: tl) = Nat.digitChar j :: tl := by
      simp [List.dropWhile, hsp]
    simp only [hdw, List.head?_cons, Option.some.injEq, hminus, hplus, or_self, if_false, hd,
      if_true, hval, decide_False]
  · intro h
    have hlen := congrArg List.length h
    rw [decimalText_append, htl, ← htl] at hlen
    have : (decimalText n ++ rest).length = (Nat.toDigitsCore 10 (n + 1) n rest).length := by
      rw [decimalText_append]
    rw [← this, List.length_append] at hlen
    have hpos : 0 < (decimalText n).length := by
      obtain ⟨j2, tl2, _, h2⟩ := toDigitsCore_head (n + 1) n [] (by omega)
      unfold decimalText Nat.toDigits
      rw [h2]
      simp
    omega

theorem tableLookup_admitted : ∀ d, d < 64 →
    (tableLookup d divisor_table).all (fun b => decide (0 ≤ b ∧ b ≤ 150000)) = true := by
  decide!

/-- For the divisors the parser admits the calculated speed divides by a
non-zero number, no `unsigned int` operation wraps, and the speed is at most
`150000`. -/
theorem calculated_speed_admitted : ∀ d, d < 64 →
    (2 * ((d + 7) % 2 ^ 32)) % 2 ^ 32 ≠ 0 ∧ 2 * (d + 7) ≠ 0 ∧
    ((1773445 + d + 7) % 2 ^ 32) / ((2 * ((d + 7) % 2 ^ 32)) % 2 ^ 32)
      = (1773445 + d + 7) / (2 * (d + 7)) ∧
    (1773445 + d + 7) / (2 * (d + 7)) ≤ 150000 := by
  decide!

/-- For the divisors the parser admits `PokeyDivisorToBaudrate` is defined, and
a baudrate it reports with success is at most `150000`. -/
theorem PokeyDivisorToBaudrate_admitted (d : Nat) (hd : d < 64) (baud0 : Nat) (ecs : Bool) :
    ∃ ok b, PokeyDivisorToBaudrate d baud0 ecs = some (ok, b) ∧ (ok = true → b ≤ 150000) := by
  have ht := tableLookup_admitted d hd
  obtain ⟨hc1, _, hc3, hc4⟩ := calculated_speed_admitted d hd
  unfold PokeyDivisorToBaudrate
  cases hlook : tableLookup d divisor_table with
  | some b =>
    rw [hlook] at ht
    have hb : 0 ≤ b ∧ b ≤ 150000 := by simpa [Option.all] using ht
    refine ⟨true, b.toNat % 2 ^ 32, rfl, fun _ => ?_⟩
    omega
  | none =>
    cases ecs with
    | false => exact ⟨false, baud0, rfl, fun h => absurd h (by decide)⟩
    | true =>
      simp only [if_true, hc1, if_false]
      exact ⟨true, _, rfl, fun _ => by rw [hc3]; exact hc4⟩

theorem deref_comma_isDigit (tl : List Char) : (deref (',' :: tl)).isDigit = false := by
  show (',' : Char).isDigit = false
  decide

theorem deref_nil_isDigit : (deref []).isDigit = false := by
  decide

/-! ## Properties of the high-speed parameter parser -/

/-- C17: `ParseHighSpeedParameters` accepts the format `divisor[,baudrate]`.
For `d ≤ 63` and `r ≤ 150000` the decimal text `d,r` is accepted with
`divisor = d` and `baudrate = r`, for both settings of
`enable_calculated_speed`; the decimal text `d` alone, `d ≤ 63`, gives the
return value of `PokeyDivisorToBaudrate d` with `divisor = d` and that
function's baudrate; and the texts `d` and `d,r` are rejected when `d > 63`,
as is `d,r` when `r > 150000`. -/
theorem c17_documented_format (d r div0 baud0 : Nat) (ecs : Bool) :
    (d ≤ 63 → r ≤ 150000 →
      ParseHighSpeedParameters (decimalText d ++ ',' :: decimalText r) div0 baud0 ecs
        = some { ret := true, divisor := d, baudrate := r }) ∧
    (d ≤ 63 → ∃ ok b, PokeyDivisorToBaudrate d baud0 ecs = some (ok, b) ∧
      ParseHighSpeedParameters (decimalText d) div0 baud0 ecs
        = some { ret := ok, divisor := d, baudrate := b }) ∧
    (63 < d →
      ParseHighSpeedParameters (decimalText d) div0 baud0 ecs
        = some { ret := false, divisor := div0, baudrate := baud0 } ∧
      ParseHighSpeedParameters (decimalText d ++ ',' :: decimalText r) div0 baud0 ecs
        = some { ret := false, divisor := div0, baudrate := baud0 }) ∧
    (d ≤ 63 → 150000 < r → ∃ b,
      ParseHighSpeedParameters (decimalText d ++ ',' :: decimalText r) div0 baud0 ecs
        = some { ret := false, divisor := d, baudrate := b }) := by
  obtain ⟨hs1, hne1⟩ := strtol_decimalText d (',' :: decimalText r) (deref_comma_isDigit _)
  obtain ⟨hs2, hne2⟩ := strtol_decimalText r [] deref_nil_isDigit
  obtain ⟨hs3, hne3⟩ := strtol_decimalText d [] deref_nil_isDigit
  rw [List.append_nil] at hs2 hne2 hs3 hne3
  have hcomma : deref (',' :: decimalText r) = ',' := rfl
  have hcomma0 : ¬ (deref (',' :: decimalText r) = Char.ofNat 0) := by
    rw [hcomma]
    decide
  have hnil : deref ([] : List Char) = Char.ofNat 0 := rfl
  have hnilc : deref ([] : List Char) ≠ ',' := by
    rw [hnil]
    decide
  have hc0 : ¬ ((',' : Char) = Char.ofNat 0) := by decide
  refine ⟨?_, ?_, ?_, ?_⟩
  · intro hd hr
    obtain ⟨ok, b, hp, _⟩ := PokeyDivisorToBaudrate_admitted d (by omega) baud0 ecs
    have hmin : min LONG_MAX (d : Int) = d := by unfold LONG_MAX; omega
    have hminr : min LONG_MAX (r : Int) = r := by unfold LONG_MAX; omega
    have hdiv : (d : Int).toNat % 2 ^ 8 = d := by
      rw [Int.toNat_ofNat]
      omega
    have hbaud : (r : Int).toNat % 2 ^ 32 = r := by
      rw [Int.toNat_ofNat]
      omega
    have hl : ¬ ((d : Int) < 0 ∨ (d : Int) > 63) := by omega
    have hl2 : ¬ ((r : Int) < 0 ∨ (r : Int) > 150000) := by omega
    unfold ParseHighSpeedParameters
    simp only [hs1, hmin, hne1, if_false, hl, hdiv, hp, hcomma0, hc0, and_false, hcomma,
      ne_eq, not_true_eq_false, List.tail_cons, hs2, hminr, hne2, hl2, hbaud, hnil]
  · intro hd
    obtain ⟨ok, b, hp, _⟩ := PokeyDivisorToBaudrate_admitted d (by omega) baud0 ecs
    refine ⟨ok, b, hp, ?_⟩
    have hmin : min LONG_MAX (d : Int) = d := by unfold LONG_MAX; omega
    have hdiv : (d : Int).toNat % 2 ^ 8 = d := by
      rw [Int.toNat_ofNat]
      omega
    have hl : ¬ ((d : Int) < 0 ∨ (d : Int) > 63) := by omega
    unfold ParseHighSpeedParameters
    simp only [hs3, hmin, hne3, if_false, hl, hdiv, hp, hnil, and_true, ne_eq, hnilc,
      not_false_eq_true, if_true]
    cases ok <;> simp
  · intro hd
    have hl : (min LONG_MAX (d : Int) < 0 ∨ min LONG_MAX (d : Int) > 63) := by
      unfold LONG_MAX
      omega
    constructor
    · unfold ParseHighSpeedParameters
      simp only [hs3, hne3, if_false, hl, if_true]
    · unfold ParseHighSpeedParameters
      simp only [hs1, hne1, if_false, hl, if_true]
  · intro hd hr
    obtain ⟨ok, b, hp, _⟩ := PokeyDivisorToBaudrate_admitted d (by omega) baud0 ecs
    refine ⟨b, ?_⟩
    have hmin : min LONG_MAX (d : Int) = d := by unfold LONG_MAX; omega
    have hdiv : (d : Int).toNat % 2 ^ 8 = d := by
      rw [Int.toNat_ofNat]
      omega
    have hl : ¬ ((d : Int) < 0 ∨ (d : Int) > 63) := by omega
    have hl2 : (min LONG_MAX (r : Int) < 0 ∨ min LONG_MAX (r : Int) > 150000) := by
      unfold LONG_MAX
      omega
    unfold ParseHighSpeedParameters
    simp only [hs1, hmin, hne1, if_false, hl, hdiv, hp, hcomma0, hc0, and_false, hcomma,
      ne_eq, not_true_eq_false, List.tail_cons, hs2, hne2, hl2, if_true]

theorem c17_documented_format_witness :
    ParseHighSpeedParameters (decimalText 8 ++ ',' :: decimalText 56000) 0 0 false
      = some { ret := true, divisor := 8, baudrate := 56000 } ∧
    decimalText 8 ++ ',' :: decimalText 56000 = ['8', ',', '5', '6', '0', '0', '0'] :=
  ⟨(c17_documented_format 8 56000 0 0 false).1 (by decide) (by decide), by decide⟩

/-- C20: for every input string, both settings of `enable_calculated_speed` and
every prior content of the two reference parameters, `ParseHighSpeedParameters`
returns (no division by zero is reached), and whenever it returns true the
resulting divisor is at most `63` and the resulting baudrate at most `150000`;
for every divisor the parser admits the calculated formula
`(1773445 + d + 7) / (2 * (d + 7))` divides by a non-zero number and yields at
most `150000`. -/
theorem c20_accepted_values_in_range (string : List Char) (div0 baud0 : Nat) (ecs : Bool) :
    (∃ res, ParseHighSpeedParameters string div0 baud0 ecs = some res ∧
      (res.ret = true → res.divisor ≤ 63 ∧ res.baudrate ≤ 150000)) ∧
    (∀ d, d ≤ 63 →
      (2 * ((d + 7) % 2 ^ 32)) % 2 ^ 32 ≠ 0 ∧ 2 * (d + 7) ≠ 0 ∧
      (1773445 + d + 7) / (2 * (d + 7)) ≤ 150000 ∧
      PokeyDivisorToBaudrate d baud0 ecs ≠ none) := by
  constructor
  · unfold ParseHighSpeedParameters
    rcases strtol string with ⟨l, tmp⟩
    simp only
    by_cases h1 : tmp = string
    · exact ⟨_, by rw [if_pos h1], fun h => by cases h⟩
    rw [if_neg h1]
    by_cases h2 : l < 0 ∨ l > 63
    · exact ⟨_, by rw [if_pos h2], fun h => by cases h⟩
    rw [if_neg h2]
    have hdiv : l.toNat % 2 ^ 8 ≤ 63 := by omega
    obtain ⟨ok, b, hp, hb⟩ := PokeyDivisorToBaudrate_admitted (l.toNat % 2 ^ 8) (by omega) baud0 ecs
    simp only [hp]
    by_cases h3 : ok = true ∧ deref tmp = Char.ofNat 0
    · exact ⟨_, by rw [if_pos h3], fun _ => ⟨hdiv, hb h3.1⟩⟩
    rw [if_neg h3]
    by_cases h4 : deref tmp ≠ ','
    · exact ⟨_, by rw [if_pos h4], fun h => by cases h⟩
    rw [if_neg h4]
    rcases strtol tmp.tail with ⟨l2, tmp2⟩
    simp only
    by_cases h5 : tmp2 = tmp.tail
    · exact ⟨_, by rw [if_pos h5], fun h => by cases h⟩
    rw [if_neg h5]
    by_cases h6 : l2 < 0 ∨ l2 > 150000
    · exact ⟨_, by rw [if_pos h6], fun h => by cases h⟩
    rw [if_neg h6]
    by_cases h7 : deref tmp2 ≠ Char.ofNat 0
    · exact ⟨_, by rw [if_pos h7], fun h => by cases h⟩
    · refine ⟨_, by rw [if_neg h7], fun _ => ⟨hdiv, ?_⟩⟩
      show l2.toNat % 2 ^ 32 ≤ 150000
      omega
  · intro d hd
    obtain ⟨hc1, hc2, _, hc4⟩ := calculated_speed_admitted d (by omega)
    obtain ⟨ok, b, hp, _⟩ := PokeyDivisorToBaudrate_admitted d (by omega) baud0 ecs
    exact ⟨hc1, hc2, hc4, by rw [hp]; simp⟩

end MiscUtils



